import Mathlib

/-!
Verification development for the `DataDownloader` utility
(`src/data_downloader/__init__.py`).

The code is embedded shallowly:

* A filesystem path is a list of components (`Fpath`).  `os.path.join`
  becomes list append, `os.path.dirname` becomes `List.dropLast`, and the
  source's string concatenations `path + ".tmp"` / `unzip_path + "_tmp"`
  become `appendToLast`, which appends to the final component.
* A filesystem state `FS` is a list of files (path with contents) together
  with a list of existing directories.  `os.path.exists`, `os.path.isdir`,
  `os.listdir`, `os.makedirs`, `os.rename`, `os.rmdir`,
  `shutil.move` and the deletion performed by `tempfile.TemporaryDirectory`
  are the operations `pathExists`, `isDir`, `children`, `mkdirAll`,
  `rename`, `rmdirEntry` and `removeTree` below.  `os.rename` is modelled
  uniformly for files and directories by rewriting the source path as a
  whole-path or prefix occurrence, which matches its effect on every path
  that can be observed afterwards.
* File contents are `Data`: either a raw byte string (`Data.raw`) or a ZIP
  archive, represented by its member list (`Data.zip`), since the only
  reader of downloaded bytes in the source is `zipfile.ZipFile`.
* The network (`urllib.request.urlopen` + the read loop) is a function
  `net : String → Response`; `Response.body` is the data received before
  the stream ended and `Response.ok` says whether the stream completed
  without an I/O or network error.  A download therefore writes `body` to
  the `.tmp` file and then either renames it into place (`ok = true`) or
  raises (`ok = false`), exactly as the `while True` read loop followed by
  `os.rename` does.
* `os.path.abspath` inside `unzip` is modelled as the identity: all paths
  in the model are taken to be already absolute.
* `glob.glob(os.path.join(src, pattern))` is modelled by matching the
  pattern against the immediate children of `src`, with the `*`/`?`
  wildcards of `fnmatch` and glob's rule that a leading dot must be
  matched literally.

Each operation returns its final filesystem together with the number of
network transfers performed, whether an extraction was performed, and the
raised exception if any (`Option Err`), so that the claims about
idempotency, atomicity and error propagation can be stated directly.
-/

/-- A filesystem path, as its list of components. -/
abbrev Fpath := List String

/-- Boolean prefix test on paths (`isPre a b` = `a` is a prefix of `b`). -/
def isPre : Fpath → Fpath → Bool
  | [], _ => true
  | _ :: _, [] => false
  | a :: as, b :: bs => a == b && isPre as bs

/-- `path + suffix` on path strings: append to the final component.
`appendToLast ["d", "f"] ".tmp" = ["d", "f.tmp"]`. -/
def appendToLast : Fpath → String → Fpath
  | [], s => [s]
  | [a], s => [a ++ s]
  | a :: b :: rest, s => a :: appendToLast (b :: rest) s

/-- All nonempty prefixes of a path (the directories `os.makedirs` creates,
together with the path itself). -/
def initsNE (p : Fpath) : List Fpath :=
  (List.range p.length).map (fun i => p.take (i + 1))

/-- Length in characters of the path string `"/".intercalate p`:
component lengths plus one separator between consecutive components.
Used for the source's `len(full_path) > 260` check. -/
def pathStrLen (p : Fpath) : Nat :=
  (p.map String.length).sum + (p.length - 1)

/-- A member of a ZIP archive: its path inside the archive and its bytes. -/
structure ZipEntry where
  name : Fpath
  data : String
deriving DecidableEq, Repr

/-- File contents: raw bytes, or a ZIP archive given by its member list. -/
inductive Data where
  | raw : String → Data
  | zip : List ZipEntry → Data
deriving DecidableEq, Repr

/-- A filesystem state: the existing files with their contents, and the
existing directories.  Duplicate directory entries are allowed and
harmless (all predicates are membership tests). -/
structure FS where
  files : List (Fpath × Data)
  dirs : List Fpath
deriving DecidableEq, Repr

/-- The contents of the file at `p`, if any (`open(p).read()`). -/
def FS.fileData (fs : FS) (p : Fpath) : Option Data :=
  (fs.files.find? (fun e => e.1 == p)).map (·.2)

/-- `os.path.isfile`. -/
def FS.isFile (fs : FS) (p : Fpath) : Bool :=
  fs.files.any (fun e => e.1 == p)

/-- `os.path.isdir`. -/
def FS.isDir (fs : FS) (p : Fpath) : Bool :=
  fs.dirs.any (fun q => q == p)

/-- `os.path.exists`. -/
def FS.pathExists (fs : FS) (p : Fpath) : Bool :=
  fs.isFile p || fs.isDir p

/-- Every path recorded in the state (file paths and directories). -/
def FS.allPaths (fs : FS) : List Fpath :=
  fs.files.map (·.1) ++ fs.dirs

/-- `os.makedirs(p, exist_ok=True)`: create `p` and all its ancestors. -/
def FS.mkdirAll (fs : FS) (p : Fpath) : FS :=
  { fs with dirs := initsNE p ++ fs.dirs }

/-- `open(p, "wb").write(d)`: create or overwrite the file at `p`. -/
def FS.writeFile (fs : FS) (p : Fpath) (d : Data) : FS :=
  { fs with files := (p, d) :: fs.files.filter (fun e => !(e.1 == p)) }

/-- Rewrite a path occurring at or below `old` to sit below `new`. -/
def rewriteP (old new p : Fpath) : Fpath :=
  if isPre old p then new ++ p.drop old.length else p

/-- `os.rename(old, new)` / `shutil.move(old, new)` for a file or a whole
directory tree: every recorded path at or below `old` moves below `new`. -/
def FS.rename (fs : FS) (old new : Fpath) : FS :=
  { files := fs.files.map (fun e => (rewriteP old new e.1, e.2)),
    dirs := fs.dirs.map (rewriteP old new) }

/-- `os.rmdir(p)`: drop the (empty) directory entry at `p`. -/
def FS.rmdirEntry (fs : FS) (p : Fpath) : FS :=
  { fs with dirs := fs.dirs.filter (fun q => !(q == p)) }

/-- Deletion of a whole tree (`tempfile.TemporaryDirectory` cleanup). -/
def FS.removeTree (fs : FS) (p : Fpath) : FS :=
  { files := fs.files.filter (fun e => !(isPre p e.1)),
    dirs := fs.dirs.filter (fun q => !(isPre p q)) }

/-- The immediate-child name contributed by `q` inside directory `p`. -/
def childOf (p q : Fpath) : Option String :=
  if isPre p q then (q.drop p.length).head? else none

/-- `os.listdir(p)`: names of the immediate children of `p`. -/
def FS.children (fs : FS) (p : Fpath) : List String :=
  (fs.allPaths.filterMap (childOf p)).dedup

/-- The server's reply for one request: the data received before the
stream ended, and whether the stream completed without error. -/
structure Response where
  body : Data
  ok : Bool

/-- The exceptions the embedded operations can raise. -/
inductive Err where
  | transfer (url : String)
  | pathTooLong (p : Fpath)
  | badZip (p : Fpath)
deriving DecidableEq, Repr

/-- Result of `DataDownloader.download`: final filesystem, number of
network transfers issued, and the raised exception if any. -/
structure DResult where
  fs : FS
  transfers : Nat
  err : Option Err
deriving DecidableEq, Repr

/-- `DataDownloader.download(url, path)`:
skip when `path` exists; otherwise create the parent directory if missing,
stream the body to `path + ".tmp"`, and rename it to `path` only when the
whole transfer completed. -/
def download (net : String → Response) (fs : FS) (url : String) (path : Fpath) :
    DResult :=
  if fs.pathExists path then ⟨fs, 0, none⟩
  else
    let destDir := path.dropLast
    let fs1 := if fs.pathExists destDir then fs else fs.mkdirAll destDir
    let tmp := appendToLast path ".tmp"
    let r := net url
    let fs2 := fs1.writeFile tmp r.body
    if r.ok then ⟨fs2.rename tmp path, 1, none⟩
    else ⟨fs2, 1, some (.transfer url)⟩

/-- Result of `DataDownloader.unzip`: final filesystem, whether an
extraction was performed, and the raised exception if any. -/
structure UResult where
  fs : FS
  extracted : Bool
  err : Option Err
deriving DecidableEq, Repr

/-- The first archive member whose extracted path exceeds 260 characters
(the `for member in zip_ref.namelist()` check). -/
def findLongEntry (base : Fpath) (entries : List ZipEntry) : Option ZipEntry :=
  entries.find? (fun m => decide (260 < pathStrLen (base ++ m.name)))

/-- `zip_ref.extractall(base)`: write every member below `base`, creating
intermediate directories. -/
def extractAll (fs : FS) (base : Fpath) (entries : List ZipEntry) : FS :=
  entries.foldl
    (fun acc m =>
      ((acc.mkdirAll (base ++ m.name).dropLast).writeFile (base ++ m.name)
        (Data.raw m.data)))
    fs

/-- `DataDownloader.unzip(zip_file_path, unzip_path, path_test)`:
skip when `unzip_path/path_test` exists; otherwise extract into the
sibling directory `unzip_path + "_tmp"` after checking every member's
path length, and rename that directory to `unzip_path` on success. -/
def unzip (fs : FS) (zipFilePath unzipPath pathTest : Fpath) : UResult :=
  let unpackDir := unzipPath ++ pathTest
  if fs.pathExists unpackDir then ⟨fs, false, none⟩
  else
    let tmp := appendToLast unzipPath "_tmp"
    let fs1 := fs.mkdirAll tmp
    match fs1.fileData zipFilePath with
    | some (Data.zip entries) =>
      match findLongEntry tmp entries with
      | some m => ⟨fs1, false, some (.pathTooLong (tmp ++ m.name))⟩
      | none => ⟨(extractAll fs1 tmp entries).rename tmp unzipPath, true, none⟩
    | _ => ⟨fs1, false, some (.badZip zipFilePath)⟩

/-- `fnmatch`-style matching with `*` and `?` wildcards. -/
def globMatch : List Char → List Char → Bool
  | [], [] => true
  | [], _ :: _ => false
  | '*' :: ps, [] => globMatch ps []
  | '*' :: ps, c :: cs => globMatch ps (c :: cs) || globMatch ('*' :: ps) cs
  | '?' :: _, [] => false
  | '?' :: ps, _ :: cs => globMatch ps cs
  | _ :: _, [] => false
  | p :: ps, c :: cs => p == c && globMatch ps cs
termination_by ps cs => (ps.length, cs.length)

/-- Whether a name begins with a literal dot (hidden-file test of `glob`). -/
def startsDot (s : String) : Bool :=
  match s.data with
  | [] => false
  | c :: _ => c == '.'

/-- `glob` matching of one directory-entry name against one pattern:
`fnmatch` wildcards, except that a leading dot is only matched by a
literal leading dot. -/
def globName (pat n : String) : Bool :=
  if startsDot n && !startsDot pat then false
  else globMatch pat.data n.data

/-- Whether some pattern in the list matches the name. -/
def matchesAny (patterns : List String) (n : String) : Bool :=
  patterns.any (fun pat => globName pat n)

/-- `DataDownloader.move_files(patterns, source_directory,
destination_directory)`: create the destination if missing, then for each
pattern move every matching immediate entry of the source into the
destination, keeping its name.  The glob snapshot is recomputed per
pattern, so an entry moved by an earlier pattern is gone for later ones. -/
def move_files (fs : FS) (patterns : List String) (src dst : Fpath) : FS :=
  let fs0 := if fs.pathExists dst then fs else fs.mkdirAll dst
  patterns.foldl
    (fun acc pat =>
      ((acc.children src).foldl
        (fun a n =>
          if globName pat n then a.rename (src ++ [n]) (dst ++ [n]) else a)
        acc))
    fs0

/-- The directory `download_path/dataset_name[/subfolder_name]` that
`download_and_unzip` materializes. -/
def targetDir (downloadPath : Fpath) (dataset : String)
    (subfolder : Option String) : Fpath :=
  downloadPath ++ [dataset] ++
    (match subfolder with | some s => [s] | none => [])

/-- The immediate children of `p` that are directories (the
`dir_entries` list of the flatten step). -/
def dirChildren (fs : FS) (p : Fpath) : List String :=
  (fs.children p).filter (fun e => fs.isDir (p ++ [e]))

/-- The flatten step of `download_and_unzip` (lines 217-235): returns the
new state, whether flattening was performed, and whether the
multiple-top-level-directories warning was printed. -/
def flattenStep (fs : FS) (target : Fpath) : FS × Bool × Bool :=
  let entries := if fs.pathExists target then fs.children target else []
  let dirEntries := entries.filter (fun e => fs.isDir (target ++ [e]))
  if 1 < dirEntries.length then (fs, false, true)
  else
    match entries with
    | [e] =>
      let cand := target ++ [e]
      if fs.isDir cand then
        let moved := (fs.children cand).foldl
          (fun acc it => acc.rename (cand ++ [it]) (target ++ [it])) fs
        (moved.rmdirEntry cand, true, false)
      else (fs, false, false)
    | _ => (fs, false, false)

/-- Result of `DataDownloader.download_and_unzip`. -/
structure DZResult where
  fs : FS
  transfers : Nat
  extracted : Bool
  flattened : Bool
  warned : Bool
  err : Option Err
deriving DecidableEq, Repr

/-- `DataDownloader.download_and_unzip(url, dataset_name, subfolder_name,
flatten_directory)`: skip download and extraction when the target
directory exists, otherwise download the ZIP into a fresh temporary
directory (`tempDir`) and unzip it into the target; the temporary
directory is removed on every exit path of the `with` block.  The flatten
step then runs (when requested) unless an exception propagated. -/
def download_and_unzip (net : String → Response) (fs : FS)
    (downloadPath tempDir : Fpath) (url dataset : String)
    (subfolder : Option String) (flatten_directory : Bool) : DZResult :=
  let unzipPath := targetDir downloadPath dataset subfolder
  let core : FS × Nat × Bool × Option Err :=
    if fs.pathExists unzipPath then (fs, 0, false, none)
    else
      let fsT := fs.mkdirAll tempDir
      let zipFilePath := tempDir ++ [dataset ++ ".zip"]
      let d := download net fsT url zipFilePath
      match d.err with
      | some e => (d.fs.removeTree tempDir, d.transfers, false, some e)
      | none =>
        let u := unzip d.fs zipFilePath unzipPath []
        match u.err with
        | some e => (u.fs.removeTree tempDir, d.transfers, false, some e)
        | none => (u.fs.removeTree tempDir, d.transfers, u.extracted, none)
  match core with
  | (fs1, tr, ex, some e) => ⟨fs1, tr, ex, false, false, some e⟩
  | (fs1, tr, ex, none) =>
    if flatten_directory then
      let f := flattenStep fs1 unzipPath
      ⟨f.1, tr, ex, f.2.1, f.2.2, none⟩
    else ⟨fs1, tr, ex, false, false, none⟩

/-- Result of `DataDownloader.download_unzip_keep_subset`. -/
structure KSResult where
  fs : FS
  transfers : Nat
  err : Option Err
deriving DecidableEq, Repr

/-- `DataDownloader.download_unzip_keep_subset(url, zip_file_patterns,
dataset_name)`: skip when `download_path/dataset_name` exists; otherwise
download and extract inside a fresh temporary directory, move the files
matching the patterns into the target, and discard the temporary
directory (on every exit path of the `with` block).  As in the source,
the `path_test` argument passed to `unzip` is the extraction path
itself. -/
def download_unzip_keep_subset (net : String → Response) (fs : FS)
    (downloadPath tempDir : Fpath) (url : String) (patterns : List String)
    (dataset : String) : KSResult :=
  let unzipPath := downloadPath ++ [dataset]
  if fs.pathExists unzipPath then ⟨fs, 0, none⟩
  else
    let fsT := fs.mkdirAll tempDir
    let zipFilePath := tempDir ++ [dataset ++ ".zip"]
    let d := download net fsT url zipFilePath
    match d.err with
    | some e => ⟨d.fs.removeTree tempDir, d.transfers, some e⟩
    | none =>
      let extractPath := tempDir ++ [dataset]
      let u := unzip d.fs zipFilePath extractPath extractPath
      match u.err with
      | some e => ⟨u.fs.removeTree tempDir, d.transfers, some e⟩
      | none =>
        let fs2 := move_files u.fs patterns extractPath unzipPath
        ⟨fs2.removeTree tempDir, d.transfers, none⟩

/-- Concrete fixture: a target directory `t` whose sole immediate entry is
the directory `sub`, holding one file. -/
def fsSingleDir : FS :=
  ⟨[(["t", "sub", "inner.txt"], Data.raw "hello")], [["t"], ["t", "sub"]]⟩

/-- Specification device for reasoning about `move_files`: the state of a
filesystem in which each flat file `(name, data)` of `flist` sits under
`dst` when `moved name` is true and under `src` otherwise, next to
unrelated files `rest` and directories `dirs0`. -/
def moveState (src dst : Fpath) (flist : List (String × String))
    (rest : List (Fpath × Data)) (dirs0 : List Fpath)
    (moved : String → Bool) : FS :=
  ⟨flist.map (fun q =>
      ((if moved q.1 then dst else src) ++ [q.1], Data.raw q.2)) ++ rest,
    dirs0⟩

/-! ### Prefix order on paths -/

theorem isPre_iff {a b : Fpath} : isPre a b = true ↔ ∃ t, b = a ++ t := by
  induction a generalizing b with
  | nil => simp [isPre]
  | cons x as ih =>
    cases b with
    | nil => simp [isPre]
    | cons y bs =>
      simp only [isPre, Bool.and_eq_true, beq_iff_eq, ih, List.cons_append,
        List.cons.injEq]
      constructor
      · rintro ⟨rfl, t, rfl⟩; exact ⟨t, rfl, rfl⟩
      · rintro ⟨t, rfl, rfl⟩; exact ⟨rfl, t, rfl⟩

theorem isPre_append (a t : Fpath) : isPre a (a ++ t) = true :=
  isPre_iff.mpr ⟨t, rfl⟩

theorem isPre_refl (a : Fpath) : isPre a a = true := by
  simpa using isPre_append a []

theorem isPre_length_le {a b : Fpath} (h : isPre a b = true) :
    a.length ≤ b.length := by
  obtain ⟨t, rfl⟩ := isPre_iff.mp h
  simp

theorem isPre_false_of_lt {a b : Fpath} (h : b.length < a.length) :
    isPre a b = false := by
  cases hp : isPre a b with
  | false => rfl
  | true => exact absurd (isPre_length_le hp) (by omega)

theorem eq_of_isPre_of_le {a b : Fpath} (h : isPre a b = true)
    (hl : b.length ≤ a.length) : a = b := by
  obtain ⟨t, rfl⟩ := isPre_iff.mp h
  have : t = [] := by
    cases t with
    | nil => rfl
    | cons u us => simp only [List.length_append, List.length_cons] at hl; omega
  simp [this]

theorem isPre_trans {a b c : Fpath} (h1 : isPre a b = true)
    (h2 : isPre b c = true) : isPre a c = true := by
  obtain ⟨t, rfl⟩ := isPre_iff.mp h1
  obtain ⟨u, rfl⟩ := isPre_iff.mp h2
  exact isPre_iff.mpr ⟨t ++ u, by simp⟩

theorem isPre_of_append_right {a b : Fpath} {x : String}
    (h : isPre (a ++ [x]) b = true) : isPre a b = true := by
  obtain ⟨t, rfl⟩ := isPre_iff.mp h
  exact isPre_iff.mpr ⟨x :: t, by simp⟩

theorem isPre_append_same (q a b : Fpath) :
    isPre (q ++ a) (q ++ b) = isPre a b := by
  induction q with
  | nil => rfl
  | cons x xs ih => simp [isPre, ih]

theorem isPre_snoc_cons {q : Fpath} {a b : String} {r : Fpath} (h : a ≠ b) :
    isPre (q ++ [a]) (q ++ b :: r) = false := by
  rw [isPre_append_same q [a] (b :: r)]
  simp [isPre, h]

theorem ne_of_isPre_not {a b : Fpath} (h : isPre a b = false) : a ≠ b := by
  rintro rfl
  rw [isPre_refl] at h
  cases h

/-! ### String and `appendToLast` facts -/

theorem str_ne_append {a t : String} (h : t.length ≠ 0) : a ≠ a ++ t := by
  intro heq
  have := congrArg String.length heq
  rw [String.length_append] at this
  omega

theorem appendToLast_concat (q : Fpath) (x s : String) :
    appendToLast (q ++ [x]) s = q ++ [x ++ s] := by
  induction q with
  | nil => rfl
  | cons a as ih =>
    cases as with
    | nil => rfl
    | cons b bs => simpa [appendToLast] using ih

/-! ### Generic list helpers -/

theorem find?_congr_mem {α : Type} {p q : α → Bool} {l : List α}
    (h : ∀ a ∈ l, p a = q a) : l.find? p = l.find? q := by
  induction l with
  | nil => rfl
  | cons a as ih =>
    have ha := h a (by simp)
    simp only [List.find?]
    rw [ha]
    cases q a with
    | true => rfl
    | false => exact ih (fun a ha' => h a (by simp [ha']))

theorem any_congr_mem {α : Type} {p q : α → Bool} {l : List α}
    (h : ∀ a ∈ l, p a = q a) : l.any p = l.any q := by
  induction l with
  | nil => rfl
  | cons a as ih =>
    simp only [List.any_cons, h a (by simp)]
    rw [ih (fun a ha' => h a (by simp [ha']))]

theorem find?_filter_of {α : Type} {k p : α → Bool} {l : List α}
    (h : ∀ a ∈ l, p a = true → k a = true) :
    (l.filter k).find? p = l.find? p := by
  induction l with
  | nil => rfl
  | cons a as ih =>
    have ih' := ih (fun a ha => h a (by simp [ha]))
    cases hk : k a with
    | true =>
      rw [List.filter_cons_of_pos hk]
      simp only [List.find?]
      cases p a <;> simp [ih']
    | false =>
      have hp : p a = false := by
        cases hpa : p a with
        | false => rfl
        | true => rw [h a (by simp) hpa] at hk; cases hk
      rw [List.filter_cons_of_neg (by simp [hk])]
      simp only [List.find?, hp]
      exact ih'

theorem any_filter_of {α : Type} {k p : α → Bool} {l : List α}
    (h : ∀ a ∈ l, p a = true → k a = true) :
    (l.filter k).any p = l.any p := by
  induction l with
  | nil => rfl
  | cons a as ih =>
    have ih' := ih (fun a ha => h a (by simp [ha]))
    cases hk : k a with
    | true =>
      rw [List.filter_cons_of_pos hk]
      simp [List.any_cons, ih']
    | false =>
      have hp : p a = false := by
        cases hpa : p a with
        | false => rfl
        | true => rw [h a (by simp) hpa] at hk; cases hk
      rw [List.filter_cons_of_neg (by simp [hk])]
      simp [List.any_cons, hp, ih']

/-! ### Pointwise behaviour of the filesystem operations -/

theorem pathExists_iff_mem {fs : FS} {p : Fpath} :
    fs.pathExists p = true ↔ p ∈ fs.allPaths := by
  simp only [FS.pathExists, FS.isFile, FS.isDir, FS.allPaths, Bool.or_eq_true,
    List.any_eq_true, beq_iff_eq, List.mem_append, List.mem_map]
  constructor
  · rintro (⟨e, he, rfl⟩ | ⟨q, hq, rfl⟩)
    · exact Or.inl ⟨e, he, rfl⟩
    · exact Or.inr hq
  · rintro (⟨e, he, rfl⟩ | hq)
    · exact Or.inl ⟨e, he, rfl⟩
    · exact Or.inr ⟨p, hq, rfl⟩

theorem isFile_eq_isSome (fs : FS) (p : Fpath) :
    fs.isFile p = (fs.fileData p).isSome := by
  simp only [FS.isFile, FS.fileData]
  rw [Bool.eq_iff_iff, List.any_eq_true]
  cases h : fs.files.find? (fun e => e.1 == p) with
  | none =>
    simp only [h, Option.map_none', Option.isSome_none, Bool.false_eq_true,
      iff_false]
    rintro ⟨x, hx, hpx⟩
    exact absurd hpx (by simpa using List.find?_eq_none.mp h x hx)
  | some e =>
    simp only [h, Option.map_some', Option.isSome_some, iff_true]
    have hpe := List.find?_some h
    exact ⟨e, List.mem_of_find?_eq_some h, by simpa using hpe⟩

theorem fileData_mkdirAll (fs : FS) (p q : Fpath) :
    (fs.mkdirAll p).fileData q = fs.fileData q := rfl

theorem isFile_mkdirAll (fs : FS) (p q : Fpath) :
    (fs.mkdirAll p).isFile q = fs.isFile q := rfl

theorem isDir_mkdirAll {fs : FS} {p q : Fpath} :
    (fs.mkdirAll p).isDir q = true ↔ q ∈ initsNE p ∨ fs.isDir q = true := by
  simp only [FS.isDir, FS.mkdirAll, List.any_append, Bool.or_eq_true,
    List.any_eq_true, beq_iff_eq]
  constructor
  · rintro (⟨x, hx, rfl⟩ | h)
    · exact Or.inl hx
    · exact Or.inr h
  · rintro (h | h)
    · exact Or.inl ⟨q, h, rfl⟩
    · exact Or.inr h

theorem mem_initsNE {p q : Fpath} :
    q ∈ initsNE p ↔ isPre q p = true ∧ q ≠ [] := by
  simp only [initsNE, List.mem_map, List.mem_range]
  constructor
  · rintro ⟨i, hi, rfl⟩
    refine ⟨isPre_iff.mpr ⟨p.drop (i + 1), (List.take_append_drop _ p).symm⟩, ?_⟩
    have : (p.take (i + 1)).length = i + 1 := List.length_take_of_le (by omega)
    intro h
    rw [h] at this
    simp at this
  · rintro ⟨h, hne⟩
    obtain ⟨t, rfl⟩ := isPre_iff.mp h
    have hq : 0 < q.length := List.length_pos.mpr hne
    refine ⟨q.length - 1, by simp; omega, ?_⟩
    have : q.length - 1 + 1 = q.length := by omega
    rw [this, List.take_left]

theorem fileData_writeFile (fs : FS) (p q : Fpath) (d : Data) :
    (fs.writeFile p d).fileData q = if q = p then some d else fs.fileData q := by
  simp only [FS.writeFile, FS.fileData]
  by_cases h : q = p
  · subst h
    rw [List.find?_cons_of_pos _ (by simp)]
    simp
  · rw [List.find?_cons_of_neg _ (by simp [Ne.symm h]), if_neg h]
    rw [find?_filter_of]
    intro e _ he
    simp only [beq_iff_eq] at he
    simp [he, h]

theorem isDir_writeFile (fs : FS) (p q : Fpath) (d : Data) :
    (fs.writeFile p d).isDir q = fs.isDir q := rfl

theorem dirs_writeFile (fs : FS) (p : Fpath) (d : Data) :
    (fs.writeFile p d).dirs = fs.dirs := rfl

theorem rewriteP_append (old new t : Fpath) :
    rewriteP old new (old ++ t) = new ++ t := by
  simp [rewriteP, isPre_append, List.drop_left]

theorem rewriteP_self (old new : Fpath) : rewriteP old new old = new := by
  simpa using rewriteP_append old new []

theorem rewriteP_of_not {old p : Fpath} (new : Fpath)
    (h : isPre old p = false) : rewriteP old new p = p := by
  simp [rewriteP, h]

theorem fileData_rename_moved {fs : FS} {old new : Fpath} (s : Fpath)
    (h : ∀ e ∈ fs.files, isPre new e.1 = false) :
    (fs.rename old new).fileData (new ++ s) = fs.fileData (old ++ s) := by
  simp only [FS.rename, FS.fileData, List.find?_map]
  rw [find?_congr_mem (q := fun e => e.1 == old ++ s)]
  · cases fs.files.find? (fun e => e.1 == old ++ s) <;> rfl
  · intro e he
    simp only [Function.comp_apply]
    by_cases hp : isPre old e.1 = true
    · obtain ⟨t, ht⟩ := isPre_iff.mp hp
      rw [ht, rewriteP_append]
      rw [Bool.eq_iff_iff]
      simp only [beq_iff_eq]
      constructor
      · intro heq; exact congrArg (old ++ ·) (List.append_cancel_left heq)
      · intro heq; exact congrArg (new ++ ·) (List.append_cancel_left heq)
    · rw [rewriteP_of_not new (by simpa using hp)]
      have h1 : (e.1 == new ++ s) = false := by
        rw [beq_eq_false_iff_ne]
        intro heq
        have hne := h e he
        rw [heq, isPre_append] at hne
        exact absurd hne (by simp)
      have h2 : (e.1 == old ++ s) = false := by
        rw [beq_eq_false_iff_ne]
        intro heq
        rw [heq, isPre_append] at hp
        exact hp rfl
      rw [h1, h2]

theorem fileData_rename_of_not {fs : FS} {old new q : Fpath}
    (h1 : isPre old q = false) (h2 : isPre new q = false) :
    (fs.rename old new).fileData q = fs.fileData q := by
  simp only [FS.rename, FS.fileData, List.find?_map]
  rw [find?_congr_mem (q := fun e => e.1 == q)]
  · cases fs.files.find? (fun e => e.1 == q) <;> rfl
  · intro e _
    simp only [Function.comp_apply]
    by_cases hp : isPre old e.1 = true
    · obtain ⟨t, ht⟩ := isPre_iff.mp hp
      rw [ht, rewriteP_append]
      have hl : (new ++ t == q) = false := by
        rw [beq_eq_false_iff_ne]
        rintro rfl
        rw [isPre_append] at h2
        cases h2
      have hr : (old ++ t == q) = false := by
        rw [beq_eq_false_iff_ne]
        rintro rfl
        rw [isPre_append] at h1
        cases h1
      rw [hl, hr]
    · rw [rewriteP_of_not new (by simpa using hp)]

theorem fileData_rename_out {fs : FS} {old new q : Fpath}
    (h1 : isPre old q = true) (h2 : isPre new q = false) :
    (fs.rename old new).fileData q = none := by
  simp only [FS.rename, FS.fileData, List.find?_map]
  have hn : fs.files.find?
      ((fun e : Fpath × Data => e.1 == q) ∘
        fun e => (rewriteP old new e.1, e.2)) = none := by
    apply List.find?_eq_none.mpr
    intro e _
    simp only [Function.comp_apply, Bool.not_eq_true]
    by_cases hp : isPre old e.1 = true
    · obtain ⟨t, ht⟩ := isPre_iff.mp hp
      rw [ht, rewriteP_append, beq_eq_false_iff_ne]
      rintro rfl
      rw [isPre_append] at h2
      cases h2
    · rw [rewriteP_of_not new (by simpa using hp), beq_eq_false_iff_ne]
      rintro rfl
      rw [h1] at hp
      exact hp rfl
  rw [hn]
  rfl

theorem isDir_rename_moved {fs : FS} {old new : Fpath} (s : Fpath)
    (h : ∀ p ∈ fs.dirs, isPre new p = false) :
    (fs.rename old new).isDir (new ++ s) = fs.isDir (old ++ s) := by
  simp only [FS.rename, FS.isDir, List.any_map]
  apply any_congr_mem
  intro q hq
  simp only [Function.comp_apply]
  by_cases hp : isPre old q = true
  · obtain ⟨t, rfl⟩ := isPre_iff.mp hp
    rw [rewriteP_append]
    rw [Bool.eq_iff_iff]
    simp only [beq_iff_eq]
    constructor
    · intro heq; exact congrArg (old ++ ·) (List.append_cancel_left heq)
    · intro heq; exact congrArg (new ++ ·) (List.append_cancel_left heq)
  · rw [rewriteP_of_not new (by simpa using hp)]
    have h1 : (q == new ++ s) = false := by
      rw [beq_eq_false_iff_ne]
      rintro rfl
      have hne := h (new ++ s) hq
      rw [isPre_append] at hne
      exact absurd hne (by simp)
    have h2 : (q == old ++ s) = false := by
      rw [beq_eq_false_iff_ne]
      rintro rfl
      rw [isPre_append] at hp
      exact hp rfl
    rw [h1, h2]

theorem isDir_rename_of_not {fs : FS} {old new q : Fpath}
    (h1 : isPre old q = false) (h2 : isPre new q = false) :
    (fs.rename old new).isDir q = fs.isDir q := by
  simp only [FS.rename, FS.isDir, List.any_map]
  apply any_congr_mem
  intro x _
  simp only [Function.comp_apply]
  by_cases hp : isPre old x = true
  · obtain ⟨t, rfl⟩ := isPre_iff.mp hp
    rw [rewriteP_append]
    have hl : (new ++ t == q) = false := by
      rw [beq_eq_false_iff_ne]
      rintro rfl
      rw [isPre_append] at h2
      cases h2
    have hr : (old ++ t == q) = false := by
      rw [beq_eq_false_iff_ne]
      rintro rfl
      rw [isPre_append] at h1
      cases h1
    rw [hl, hr]
  · rw [rewriteP_of_not new (by simpa using hp)]

theorem isDir_rename_out {fs : FS} {old new q : Fpath}
    (h1 : isPre old q = true) (h2 : isPre new q = false) :
    (fs.rename old new).isDir q = false := by
  simp only [FS.rename, FS.isDir, List.any_map]
  rw [Bool.eq_false_iff]
  intro hany
  obtain ⟨x, _, hx⟩ := List.any_eq_true.mp hany
  simp only [Function.comp_apply, beq_iff_eq] at hx
  by_cases hp : isPre old x = true
  · obtain ⟨t, rfl⟩ := isPre_iff.mp hp
    rw [rewriteP_append] at hx
    rw [← hx, isPre_append] at h2
    cases h2
  · rw [rewriteP_of_not new (by simpa using hp)] at hx
    rw [hx] at hp
    exact hp h1

theorem fileData_removeTree_of_not {fs : FS} {p q : Fpath}
    (h : isPre p q = false) :
    (fs.removeTree p).fileData q = fs.fileData q := by
  simp only [FS.removeTree, FS.fileData]
  rw [find?_filter_of]
  intro e _ he
  simp only [beq_iff_eq] at he
  simp [he, h]

theorem fileData_removeTree_under {fs : FS} {p q : Fpath}
    (h : isPre p q = true) :
    (fs.removeTree p).fileData q = none := by
  simp only [FS.removeTree, FS.fileData]
  have hn : (fs.files.filter (fun e => !(isPre p e.1))).find?
      (fun e => e.1 == q) = none := by
    apply List.find?_eq_none.mpr
    intro e he
    rw [List.mem_filter] at he
    simp only [Bool.not_eq_true, beq_eq_false_iff_ne]
    rintro rfl
    rw [h] at he
    simp at he
  rw [hn]
  rfl

theorem isDir_removeTree_of_not {fs : FS} {p q : Fpath}
    (h : isPre p q = false) :
    (fs.removeTree p).isDir q = fs.isDir q := by
  simp only [FS.removeTree, FS.isDir]
  rw [any_filter_of]
  intro x _ hx
  simp only [beq_iff_eq] at hx
  simp [hx, h]

theorem isDir_removeTree_under {fs : FS} {p q : Fpath}
    (h : isPre p q = true) :
    (fs.removeTree p).isDir q = false := by
  simp only [FS.removeTree, FS.isDir]
  rw [Bool.eq_false_iff]
  intro hany
  obtain ⟨x, hx, hxq⟩ := List.any_eq_true.mp hany
  rw [List.mem_filter] at hx
  simp only [beq_iff_eq] at hxq
  subst hxq
  rw [h] at hx
  simp at hx

theorem pathExists_removeTree_of_not {fs : FS} {p q : Fpath}
    (h : isPre p q = false) :
    (fs.removeTree p).pathExists q = fs.pathExists q := by
  simp only [FS.pathExists, isFile_eq_isSome, fileData_removeTree_of_not h,
    isDir_removeTree_of_not h]

theorem pathExists_removeTree_under {fs : FS} {p q : Fpath}
    (h : isPre p q = true) :
    (fs.removeTree p).pathExists q = false := by
  simp only [FS.pathExists, isFile_eq_isSome, fileData_removeTree_under h,
    isDir_removeTree_under h, Option.isSome_none, Bool.or_false]

theorem fileData_rmdirEntry (fs : FS) (p q : Fpath) :
    (fs.rmdirEntry p).fileData q = fs.fileData q := rfl

theorem isDir_rmdirEntry_self (fs : FS) (p : Fpath) :
    (fs.rmdirEntry p).isDir p = false := by
  simp only [FS.rmdirEntry, FS.isDir]
  rw [Bool.eq_false_iff]
  intro hany
  obtain ⟨x, hx, hxq⟩ := List.any_eq_true.mp hany
  rw [List.mem_filter] at hx
  simp only [beq_iff_eq] at hxq
  rw [hxq] at hx
  simp at hx

theorem isDir_rmdirEntry_of_ne {fs : FS} {p q : Fpath} (h : q ≠ p) :
    (fs.rmdirEntry p).isDir q = fs.isDir q := by
  simp only [FS.rmdirEntry, FS.isDir]
  rw [any_filter_of]
  intro x _ hx
  simp only [beq_iff_eq] at hx
  simp [hx, h]

theorem mem_children_iff {fs : FS} {p : Fpath} {n : String} :
    n ∈ fs.children p ↔ ∃ t, (p ++ n :: t) ∈ fs.allPaths := by
  simp only [FS.children, List.mem_dedup, List.mem_filterMap]
  constructor
  · rintro ⟨q, hq, hco⟩
    simp only [childOf] at hco
    by_cases hp : isPre p q = true
    · rw [if_pos hp] at hco
      obtain ⟨t, rfl⟩ := isPre_iff.mp hp
      rw [List.drop_left] at hco
      cases t with
      | nil => simp at hco
      | cons a t' =>
        simp only [List.head?_cons, Option.some.injEq] at hco
        subst hco
        exact ⟨t', hq⟩
    · rw [if_neg hp] at hco
      cases hco
  · rintro ⟨t, ht⟩
    refine ⟨p ++ n :: t, ht, ?_⟩
    simp only [childOf, isPre_append, if_pos, List.drop_left]
    rfl

theorem children_nodup (fs : FS) (p : Fpath) : (fs.children p).Nodup :=
  List.nodup_dedup _

/-! ### Disjointness of a path and its `+ suffix` sibling -/

theorem isPre_p_appLast_r {p : Fpath} {s : String} (r : Fpath)
    (hp : p ≠ []) (hs : s.length ≠ 0) :
    isPre p (appendToLast p s ++ r) = false := by
  rcases List.eq_nil_or_concat p with rfl | ⟨q, x, rfl⟩
  · exact absurd rfl hp
  · rw [List.concat_eq_append, appendToLast_concat, List.append_assoc,
      List.singleton_append]
    exact isPre_snoc_cons (str_ne_append hs)

theorem isPre_appLast_p_r {p : Fpath} {s : String} (r : Fpath)
    (hp : p ≠ []) (hs : s.length ≠ 0) :
    isPre (appendToLast p s) (p ++ r) = false := by
  rcases List.eq_nil_or_concat p with rfl | ⟨q, x, rfl⟩
  · exact absurd rfl hp
  · rw [List.concat_eq_append, appendToLast_concat, List.append_assoc,
      List.singleton_append]
    exact isPre_snoc_cons (Ne.symm (str_ne_append hs))

theorem isPre_p_appLast {p : Fpath} {s : String} (hp : p ≠ [])
    (hs : s.length ≠ 0) : isPre p (appendToLast p s) = false := by
  have := isPre_p_appLast_r (p := p) (s := s) [] hp hs
  simpa using this

theorem isPre_appLast_p {p : Fpath} {s : String} (hp : p ≠ [])
    (hs : s.length ≠ 0) : isPre (appendToLast p s) p = false := by
  have := isPre_appLast_p_r (p := p) (s := s) [] hp hs
  simpa using this

theorem appendToLast_ne {p : Fpath} {s : String} (hs : s.length ≠ 0) :
    appendToLast p s ≠ p := by
  rcases List.eq_nil_or_concat p with rfl | ⟨q, x, rfl⟩
  · simp [appendToLast]
  · rw [List.concat_eq_append, appendToLast_concat]
    intro h
    have hx := List.append_cancel_left h
    simp only [List.cons.injEq, and_true] at hx
    exact Ne.symm (str_ne_append hs) hx

theorem appendToLast_ne_nil {p : Fpath} {s : String} :
    appendToLast p s ≠ [] := by
  rcases List.eq_nil_or_concat p with rfl | ⟨q, x, rfl⟩
  · simp [appendToLast]
  · rw [List.concat_eq_append, appendToLast_concat]
    simp

theorem isFile_writeFile_self (fs : FS) (p : Fpath) (d : Data) :
    (fs.writeFile p d).isFile p = true := by
  simp [FS.writeFile, FS.isFile]

theorem isFile_rename_self {fs : FS} {old : Fpath} (new : Fpath)
    (h : fs.isFile old = true) : (fs.rename old new).isFile new = true := by
  simp only [FS.isFile, List.any_eq_true, beq_iff_eq] at h ⊢
  obtain ⟨e, he, he1⟩ := h
  refine ⟨(rewriteP old new e.1, e.2), List.mem_map.mpr ⟨e, he, rfl⟩, ?_⟩
  simp [he1, rewriteP_self]

theorem isDir_rename_self {fs : FS} {old : Fpath} (new : Fpath)
    (h : fs.isDir old = true) : (fs.rename old new).isDir new = true := by
  simp only [FS.isDir, List.any_eq_true, beq_iff_eq] at h ⊢
  obtain ⟨q, hq, hq1⟩ := h
  refine ⟨rewriteP old new q, List.mem_map.mpr ⟨q, hq, rfl⟩, ?_⟩
  simp [hq1, rewriteP_self]

theorem isDir_mkdirAll_self {fs : FS} {p : Fpath} (hp : p ≠ []) :
    (fs.mkdirAll p).isDir p = true :=
  isDir_mkdirAll.mpr (Or.inl (mem_initsNE.mpr ⟨isPre_refl p, hp⟩))

/-! ### Branch shapes of `download` and `unzip` -/

theorem download_of_exists {net : String → Response} {fs : FS} {url : String}
    {path : Fpath} (h : fs.pathExists path = true) :
    download net fs url path = ⟨fs, 0, none⟩ := by
  unfold download
  rw [if_pos h]

theorem download_of_ok {net : String → Response} {fs : FS} {url : String}
    {path : Fpath} (h : fs.pathExists path = false)
    (hok : (net url).ok = true) :
    download net fs url path =
      ⟨((if fs.pathExists path.dropLast = true then fs
          else fs.mkdirAll path.dropLast).writeFile
            (appendToLast path ".tmp") (net url).body).rename
          (appendToLast path ".tmp") path, 1, none⟩ := by
  unfold download
  rw [if_neg (by simp [h])]
  simp only [hok, if_true]

theorem download_of_fail {net : String → Response} {fs : FS} {url : String}
    {path : Fpath} (h : fs.pathExists path = false)
    (hok : (net url).ok = false) :
    download net fs url path =
      ⟨(if fs.pathExists path.dropLast = true then fs
          else fs.mkdirAll path.dropLast).writeFile
            (appendToLast path ".tmp") (net url).body, 1,
        some (.transfer url)⟩ := by
  unfold download
  rw [if_neg (by simp [h])]
  simp only [hok, Bool.false_eq_true, if_false]

theorem unzip_of_exists {fs : FS} {zipFilePath unzipPath pathTest : Fpath}
    (h : fs.pathExists (unzipPath ++ pathTest) = true) :
    unzip fs zipFilePath unzipPath pathTest = ⟨fs, false, none⟩ := by
  unfold unzip
  rw [if_pos h]

theorem unzip_of_zip {fs : FS} {zipFilePath unzipPath pathTest : Fpath}
    {entries : List ZipEntry}
    (h : fs.pathExists (unzipPath ++ pathTest) = false)
    (hfd : (fs.mkdirAll (appendToLast unzipPath "_tmp")).fileData zipFilePath =
      some (Data.zip entries))
    (hlen : findLongEntry (appendToLast unzipPath "_tmp") entries = none) :
    unzip fs zipFilePath unzipPath pathTest =
      ⟨(extractAll (fs.mkdirAll (appendToLast unzipPath "_tmp"))
          (appendToLast unzipPath "_tmp") entries).rename
          (appendToLast unzipPath "_tmp") unzipPath, true, none⟩ := by
  unfold unzip
  rw [if_neg (by simp [h])]
  simp only [hfd, hlen]

theorem unzip_of_long {fs : FS} {zipFilePath unzipPath pathTest : Fpath}
    {entries : List ZipEntry} {m : ZipEntry}
    (h : fs.pathExists (unzipPath ++ pathTest) = false)
    (hfd : (fs.mkdirAll (appendToLast unzipPath "_tmp")).fileData zipFilePath =
      some (Data.zip entries))
    (hlen : findLongEntry (appendToLast unzipPath "_tmp") entries = some m) :
    unzip fs zipFilePath unzipPath pathTest =
      ⟨fs.mkdirAll (appendToLast unzipPath "_tmp"), false,
        some (.pathTooLong (appendToLast unzipPath "_tmp" ++ m.name))⟩ := by
  unfold unzip
  rw [if_neg (by simp [h])]
  simp only [hfd, hlen]

theorem not_mem_initsNE_dropLast (path : Fpath) :
    path ∉ initsNE path.dropLast := by
  intro h
  obtain ⟨h1, h2⟩ := mem_initsNE.mp h
  have hl := isPre_length_le h1
  rw [List.length_dropLast] at hl
  have : path.length ≠ 0 := fun h0 => h2 (List.eq_nil_of_length_eq_zero h0)
  omega

theorem pathExists_after_failed_download
    {net : String → Response} {fs : FS} {url : String} {path : Fpath}
    (h : fs.pathExists path = false) :
    ((if fs.pathExists path.dropLast = true then fs
        else fs.mkdirAll path.dropLast).writeFile
          (appendToLast path ".tmp") (net url).body).pathExists path = false := by
  have hne : path ≠ appendToLast path ".tmp" :=
    Ne.symm (appendToLast_ne (by decide))
  have hfile : fs.isFile path = false := by
    rcases Bool.or_eq_false_iff.mp h with ⟨hf, _⟩
    exact hf
  have hdir : fs.isDir path = false := by
    rcases Bool.or_eq_false_iff.mp h with ⟨_, hd⟩
    exact hd
  rw [FS.pathExists, Bool.or_eq_false_iff]
  constructor
  · rw [isFile_eq_isSome, fileData_writeFile, if_neg hne]
    split
    · rw [← isFile_eq_isSome, hfile]
    · rw [fileData_mkdirAll, ← isFile_eq_isSome, hfile]
  · rw [isDir_writeFile]
    split
    · exact hdir
    · rw [Bool.eq_false_iff]
      intro hmem
      rcases isDir_mkdirAll.mp hmem with hin | hfs
      · exact not_mem_initsNE_dropLast path hin
      · rw [hfs] at hdir
        cases hdir

/-- C2: if an I/O or network error occurs while `download` is streaming the
response body, no file exists at the final destination path afterwards (the
write lands only in the sibling `.tmp` path and the rename never happens),
and the error propagates to the caller after exactly one transfer attempt
(no retry), carrying the url unmodified. -/
theorem download_stream_error_atomic (net : String → Response) (fs : FS)
    (url : String) (path : Fpath) (e : Err)
    (h : (download net fs url path).err = some e) :
    (download net fs url path).fs.pathExists path = false ∧
    (download net fs url path).transfers = 1 ∧
    e = Err.transfer url := by
  by_cases hex : fs.pathExists path = true
  · rw [download_of_exists hex] at h
    cases h
  · have hex' : fs.pathExists path = false := by
      revert hex; cases fs.pathExists path <;> simp
    cases hok : (net url).ok with
    | true =>
      rw [download_of_ok hex' hok] at h
      cases h
    | false =>
      rw [download_of_fail hex' hok] at h ⊢
      refine ⟨pathExists_after_failed_download hex', rfl, ?_⟩
      cases h
      rfl

/-- Witness for C2 at a concrete failing transfer. -/
theorem download_stream_error_atomic_witness :
    (download (fun _ => ⟨Data.raw "x", false⟩) ⟨[], []⟩ "u"
        ["d", "f"]).fs.pathExists ["d", "f"] = false ∧
    (download (fun _ => ⟨Data.raw "x", false⟩) ⟨[], []⟩ "u"
        ["d", "f"]).transfers = 1 ∧
    Err.transfer "u" = Err.transfer "u" :=
  download_stream_error_atomic _ _ _ _ _ (by decide)

/-- C3: if a file already exists at the destination path, `download` is a
no-op (identical filesystem, zero transfers, no error); and after any
successful call the second call with the same destination is such a no-op,
so two consecutive calls perform at most one network transfer in total. -/
theorem download_idempotent (net : String → Response) (fs : FS) (url : String)
    (path : Fpath) (h : (download net fs url path).err = none) :
    (fs.pathExists path = true → download net fs url path = ⟨fs, 0, none⟩) ∧
    download net (download net fs url path).fs url path =
      ⟨(download net fs url path).fs, 0, none⟩ ∧
    (download net fs url path).transfers +
      (download net (download net fs url path).fs url path).transfers ≤ 1 := by
  refine ⟨fun hex => download_of_exists hex, ?_⟩
  by_cases hex : fs.pathExists path = true
  · rw [download_of_exists hex]
    rw [download_of_exists hex]
    simp
  · have hex' : fs.pathExists path = false := by
      revert hex; cases fs.pathExists path <;> simp
    cases hok : (net url).ok with
    | false =>
      rw [download_of_fail hex' hok] at h
      cases h
    | true =>
      rw [download_of_ok hex' hok]
      have hfile : ((if fs.pathExists path.dropLast = true then fs
          else fs.mkdirAll path.dropLast).writeFile
            (appendToLast path ".tmp") (net url).body).isFile
              (appendToLast path ".tmp") = true := isFile_writeFile_self _ _ _
      have hex2 : (((if fs.pathExists path.dropLast = true then fs
          else fs.mkdirAll path.dropLast).writeFile
            (appendToLast path ".tmp") (net url).body).rename
              (appendToLast path ".tmp") path).pathExists path = true := by
        rw [FS.pathExists, isFile_rename_self path hfile]
        rfl
      rw [download_of_exists hex2]
      simp

/-- Witness for C3 at a concrete successful download. -/
theorem download_idempotent_witness :
    ((⟨[], []⟩ : FS).pathExists ["d", "f"] = true →
      download (fun _ => ⟨Data.raw "x", true⟩) ⟨[], []⟩ "u" ["d", "f"] =
        ⟨⟨[], []⟩, 0, none⟩) ∧
    download (fun _ => ⟨Data.raw "x", true⟩)
        (download (fun _ => ⟨Data.raw "x", true⟩) ⟨[], []⟩ "u" ["d", "f"]).fs
        "u" ["d", "f"] =
      ⟨(download (fun _ => ⟨Data.raw "x", true⟩) ⟨[], []⟩ "u" ["d", "f"]).fs,
        0, none⟩ ∧
    (download (fun _ => ⟨Data.raw "x", true⟩) ⟨[], []⟩ "u" ["d", "f"]).transfers +
      (download (fun _ => ⟨Data.raw "x", true⟩)
        (download (fun _ => ⟨Data.raw "x", true⟩) ⟨[], []⟩ "u" ["d", "f"]).fs
        "u" ["d", "f"]).transfers ≤ 1 :=
  download_idempotent _ _ _ _ (by decide)

/-- C7 counterexample: a failed download returns with the `.tmp` sibling
file still present, so the scratch area is not removed before control
returns to the caller on failure. -/
theorem temp_cleanup_counterexample :
    (download (fun _ => ⟨Data.raw "x", false⟩) ⟨[], []⟩ "u"
        ["d", "f"]).err.isSome = true ∧
    (download (fun _ => ⟨Data.raw "x", false⟩) ⟨[], []⟩ "u"
        ["d", "f"]).fs.pathExists ["d", "f.tmp"] = true := by decide

/-- C7 amended: on success the scratch path is consumed by the atomic
rename, so a `download` that did not find a pre-existing `.tmp` sibling
leaves no `.tmp` file behind, and an `unzip` that did not find a
pre-existing `_tmp` sibling leaves no `_tmp` directory behind; on failure
the scratch may remain. -/
theorem temp_removed_on_success (net : String → Response) (fs fsu : FS)
    (url : String) (path zipFilePath unzipPath pathTest : Fpath)
    (hpath : path ≠ []) (huzp : unzipPath ≠ [])
    (h1 : fs.pathExists (appendToLast path ".tmp") = false)
    (h2 : fsu.pathExists (appendToLast unzipPath "_tmp") = false)
    (hd : (download net fs url path).err = none)
    (hu : (unzip fsu zipFilePath unzipPath pathTest).err = none) :
    (download net fs url path).fs.pathExists (appendToLast path ".tmp") =
      false ∧
    (unzip fsu zipFilePath unzipPath pathTest).fs.pathExists
      (appendToLast unzipPath "_tmp") = false := by
  constructor
  · by_cases hex : fs.pathExists path = true
    · rw [download_of_exists hex]
      exact h1
    · have hex' : fs.pathExists path = false := by
        revert hex; cases fs.pathExists path <;> simp
      cases hok : (net url).ok with
      | false =>
        rw [download_of_fail hex' hok] at hd
        cases hd
      | true =>
        rw [download_of_ok hex' hok]
        have hP : isPre path (appendToLast path ".tmp") = false :=
          isPre_p_appLast hpath (by decide)
        rw [FS.pathExists, Bool.or_eq_false_iff]
        constructor
        · rw [isFile_eq_isSome,
            fileData_rename_out (isPre_refl _) hP]
          rfl
        · exact isDir_rename_out (isPre_refl _) hP
  · by_cases hex : fsu.pathExists (unzipPath ++ pathTest) = true
    · rw [unzip_of_exists hex]
      exact h2
    · have hex' : fsu.pathExists (unzipPath ++ pathTest) = false := by
        revert hex; cases fsu.pathExists (unzipPath ++ pathTest) <;> simp
      have hP : isPre unzipPath (appendToLast unzipPath "_tmp") = false :=
        isPre_p_appLast huzp (by decide)
      rcases hfd : (fsu.mkdirAll (appendToLast unzipPath "_tmp")).fileData
          zipFilePath with _ | d
      · unfold unzip at hu ⊢
        rw [if_neg (by simp [hex'])] at hu ⊢
        simp only [hfd] at hu
        cases hu
      · cases d with
        | raw b =>
          unfold unzip at hu ⊢
          rw [if_neg (by simp [hex'])] at hu ⊢
          simp only [hfd] at hu
          cases hu
        | zip entries =>
          rcases hlen : findLongEntry (appendToLast unzipPath "_tmp") entries
            with _ | m
          · rw [unzip_of_zip hex' hfd hlen]
            rw [FS.pathExists, Bool.or_eq_false_iff]
            constructor
            · rw [isFile_eq_isSome,
                fileData_rename_out (isPre_refl _) hP]
              rfl
            · exact isDir_rename_out (isPre_refl _) hP
          · rw [unzip_of_long hex' hfd hlen] at hu
            cases hu

/-- Witness for the amended C7 at a concrete successful download and a
concrete successful extraction. -/
theorem temp_removed_on_success_witness :
    (download (fun _ => ⟨Data.raw "x", true⟩) ⟨[], []⟩ "u"
        ["d", "f"]).fs.pathExists (appendToLast ["d", "f"] ".tmp") = false ∧
    (unzip ⟨[(["z.zip"], Data.zip [⟨["a.txt"], "A"⟩])], []⟩ ["z.zip"] ["out"]
        []).fs.pathExists (appendToLast ["out"] "_tmp") = false :=
  temp_removed_on_success (fun _ => ⟨Data.raw "x", true⟩) ⟨[], []⟩
    ⟨[(["z.zip"], Data.zip [⟨["a.txt"], "A"⟩])], []⟩ "u" ["d", "f"] ["z.zip"]
    ["out"] [] (by decide) (by decide) (by decide) (by decide) (by decide)
    (by decide)

theorem fileData_eq_none {fs : FS} {q : Fpath}
    (h : ∀ e ∈ fs.files, e.1 ≠ q) : fs.fileData q = none := by
  simp only [FS.fileData]
  have hn : fs.files.find? (fun e => e.1 == q) = none := by
    apply List.find?_eq_none.mpr
    intro e he
    simpa using h e he
  rw [hn]
  rfl

theorem isDir_mkdirAll_of_not_mem {fs : FS} {p q : Fpath}
    (h : q ∉ initsNE p) : (fs.mkdirAll p).isDir q = fs.isDir q := by
  rw [Bool.eq_iff_iff]
  constructor
  · intro hm
    rcases isDir_mkdirAll.mp hm with hin | hd
    · exact absurd hin h
    · exact hd
  · intro hd
    exact isDir_mkdirAll.mpr (Or.inr hd)

theorem unzipPath_not_mem_initsNE_tmp (unzipPath : Fpath) :
    unzipPath ∉ initsNE (appendToLast unzipPath "_tmp") := by
  intro h
  obtain ⟨h1, h2⟩ := mem_initsNE.mp h
  rw [isPre_p_appLast h2 (by decide)] at h1
  cases h1

/-- C4: when some archive member's extracted path exceeds the 260-character
bound, `unzip` raises a descriptive error (the reported path really exceeds
the bound) before the final rename: no extraction is recorded, the file
contents of the filesystem are untouched, and whether the destination
directory exists is unchanged — so a destination that did not exist never
comes into existence. -/
theorem unzip_pathTooLong_aborts (fs : FS)
    (zipFilePath unzipPath pathTest p : Fpath)
    (h : (unzip fs zipFilePath unzipPath pathTest).err =
      some (.pathTooLong p)) :
    (unzip fs zipFilePath unzipPath pathTest).fs.files = fs.files ∧
    (unzip fs zipFilePath unzipPath pathTest).fs.pathExists unzipPath =
      fs.pathExists unzipPath ∧
    (unzip fs zipFilePath unzipPath pathTest).extracted = false ∧
    260 < pathStrLen p := by
  by_cases hex : fs.pathExists (unzipPath ++ pathTest) = true
  · rw [unzip_of_exists hex] at h
    cases h
  · have hex' : fs.pathExists (unzipPath ++ pathTest) = false := by
      revert hex; cases fs.pathExists (unzipPath ++ pathTest) <;> simp
    rcases hfd : (fs.mkdirAll (appendToLast unzipPath "_tmp")).fileData
        zipFilePath with _ | d
    · unfold unzip at h ⊢
      rw [if_neg (by simp [hex'])] at h ⊢
      simp only [hfd] at h
      cases h
    · cases d with
      | raw b =>
        unfold unzip at h ⊢
        rw [if_neg (by simp [hex'])] at h ⊢
        simp only [hfd] at h
        cases h
      | zip entries =>
        rcases hlen : findLongEntry (appendToLast unzipPath "_tmp") entries
          with _ | m
        · rw [unzip_of_zip hex' hfd hlen] at h
          cases h
        · rw [unzip_of_long hex' hfd hlen] at h ⊢
          have hp : appendToLast unzipPath "_tmp" ++ m.name = p := by
            cases h
            rfl
          refine ⟨rfl, ?_, rfl, ?_⟩
          · rw [FS.pathExists, FS.pathExists, isFile_mkdirAll,
              isDir_mkdirAll_of_not_mem (unzipPath_not_mem_initsNE_tmp _)]
          · have hm := List.find?_some hlen
            rw [← hp]
            simpa using hm

set_option maxRecDepth 20000 in
/-- Witness for C4 at a concrete archive containing one member whose
extracted path has 268 characters. -/
theorem unzip_pathTooLong_aborts_witness :
    (unzip ⟨[(["z.zip"],
        Data.zip [⟨[String.mk (List.replicate 260 'a')], "x"⟩])], []⟩
        ["z.zip"] ["out"] []).fs.files =
      [(["z.zip"], Data.zip [⟨[String.mk (List.replicate 260 'a')], "x"⟩])] ∧
    (unzip ⟨[(["z.zip"],
        Data.zip [⟨[String.mk (List.replicate 260 'a')], "x"⟩])], []⟩
        ["z.zip"] ["out"] []).fs.pathExists ["out"] =
      (⟨[(["z.zip"],
        Data.zip [⟨[String.mk (List.replicate 260 'a')], "x"⟩])], []⟩ :
          FS).pathExists ["out"] ∧
    (unzip ⟨[(["z.zip"],
        Data.zip [⟨[String.mk (List.replicate 260 'a')], "x"⟩])], []⟩
        ["z.zip"] ["out"] []).extracted = false ∧
    260 < pathStrLen ["out_tmp", String.mk (List.replicate 260 'a')] :=
  unzip_pathTooLong_aborts _ _ _ _ _ (by decide)

/-- C9: when `unzip` raises the path-length error, the whole member list
was vetted before any extraction started: at the moment the error is
raised not a single archive member (including those preceding the
offending one) has been written below the temporary extraction
directory. -/
theorem unzip_pathTooLong_no_member_written (fs : FS)
    (zipFilePath unzipPath pathTest p : Fpath) (entries : List ZipEntry)
    (hfs : ∀ e ∈ fs.files, isPre (appendToLast unzipPath "_tmp") e.1 = false)
    (hzip : fs.fileData zipFilePath = some (Data.zip entries))
    (h : (unzip fs zipFilePath unzipPath pathTest).err =
      some (.pathTooLong p)) :
    ∀ m ∈ entries, (unzip fs zipFilePath unzipPath pathTest).fs.fileData
      (appendToLast unzipPath "_tmp" ++ m.name) = none := by
  by_cases hex : fs.pathExists (unzipPath ++ pathTest) = true
  · rw [unzip_of_exists hex] at h
    cases h
  · have hex' : fs.pathExists (unzipPath ++ pathTest) = false := by
      revert hex; cases fs.pathExists (unzipPath ++ pathTest) <;> simp
    have hfd : (fs.mkdirAll (appendToLast unzipPath "_tmp")).fileData
        zipFilePath = some (Data.zip entries) := by
      rw [fileData_mkdirAll]
      exact hzip
    rcases hlen : findLongEntry (appendToLast unzipPath "_tmp") entries
      with _ | m0
    · rw [unzip_of_zip hex' hfd hlen] at h
      cases h
    · rw [unzip_of_long hex' hfd hlen]
      intro m _
      rw [fileData_mkdirAll]
      apply fileData_eq_none
      intro e he
      intro heq
      have := hfs e he
      rw [heq, isPre_append] at this
      cases this

set_option maxRecDepth 20000 in
/-- Witness for C9 at a concrete two-member archive whose first member is
fine and whose second member's extracted path is too long. -/
theorem unzip_pathTooLong_no_member_written_witness :
    (unzip ⟨[(["z.zip"], Data.zip [⟨["ok.txt"], "y"⟩,
        ⟨[String.mk (List.replicate 260 'a')], "x"⟩])], []⟩
      ["z.zip"] ["out"] []).fs.fileData
      (appendToLast ["out"] "_tmp" ++ ["ok.txt"]) = none :=
  unzip_pathTooLong_no_member_written
    ⟨[(["z.zip"], Data.zip [⟨["ok.txt"], "y"⟩,
      ⟨[String.mk (List.replicate 260 'a')], "x"⟩])], []⟩
    ["z.zip"] ["out"] []
    ["out_tmp", String.mk (List.replicate 260 'a')]
    [⟨["ok.txt"], "y"⟩, ⟨[String.mk (List.replicate 260 'a')], "x"⟩]
    (by decide) (by decide) (by decide) ⟨["ok.txt"], "y"⟩ (by decide)

/-! ### The flatten fold -/

theorem isPre_cons_ne {a b : String} (r t : Fpath) (h : a ≠ b) :
    isPre (a :: r) (b :: t) = false := by
  simp [isPre, h]

theorem isPre_append_singleton (base : Fpath) (a b : String) (t : Fpath) :
    isPre (base ++ [a]) (base ++ b :: t) = (a == b) := by
  rw [isPre_append_same]
  simp [isPre]

theorem mem_allPaths_of_files {fs : FS} {x : Fpath × Data}
    (h : x ∈ fs.files) : x.1 ∈ fs.allPaths :=
  List.mem_append.mpr (Or.inl (List.mem_map.mpr ⟨x, h, rfl⟩))

theorem mem_allPaths_of_dirs {fs : FS} {x : Fpath}
    (h : x ∈ fs.dirs) : x ∈ fs.allPaths :=
  List.mem_append.mpr (Or.inr h)

theorem flatten_fold_out (target cand : Fpath) (L : List String) (st : FS)
    (q : Fpath)
    (hq1 : ∀ j ∈ L, isPre (cand ++ [j]) q = false)
    (hq2 : ∀ j ∈ L, isPre (target ++ [j]) q = false) :
    (L.foldl (fun acc it => acc.rename (cand ++ [it]) (target ++ [it]))
        st).fileData q = st.fileData q ∧
    (L.foldl (fun acc it => acc.rename (cand ++ [it]) (target ++ [it]))
        st).isDir q = st.isDir q := by
  induction L generalizing st with
  | nil => exact ⟨rfl, rfl⟩
  | cons j L ih =>
    simp only [List.foldl_cons]
    have h1 := hq1 j (by simp)
    have h2 := hq2 j (by simp)
    have step1 := @fileData_rename_of_not st (cand ++ [j])
      (target ++ [j]) _ h1 h2
    have step2 := @isDir_rename_of_not st (cand ++ [j])
      (target ++ [j]) _ h1 h2
    have := ih (st.rename (cand ++ [j]) (target ++ [j]))
      (fun j' hj' => hq1 j' (by simp [hj']))
      (fun j' hj' => hq2 j' (by simp [hj']))
    rw [this.1, this.2, step1, step2]
    exact ⟨rfl, rfl⟩

theorem flatten_clean_step {st : FS} {target cand : Fpath} {j j' : String}
    (hne : j' ≠ j)
    (hf : ∀ x ∈ st.files, isPre (target ++ [j']) x.1 = false)
    (hd : ∀ x ∈ st.dirs, isPre (target ++ [j']) x = false) :
    (∀ x ∈ (st.rename (cand ++ [j]) (target ++ [j])).files,
      isPre (target ++ [j']) x.1 = false) ∧
    (∀ x ∈ (st.rename (cand ++ [j]) (target ++ [j])).dirs,
      isPre (target ++ [j']) x = false) := by
  constructor
  · intro x hx
    simp only [FS.rename, List.mem_map] at hx
    obtain ⟨y, hy, rfl⟩ := hx
    simp only [rewriteP]
    split
    · rename_i hpre
      obtain ⟨t, ht⟩ := isPre_iff.mp hpre
      rw [ht, List.drop_left]
      rw [List.append_assoc, List.singleton_append]
      exact isPre_append_singleton target j' j t ▸ (by simp [hne])
    · exact hf y hy
  · intro x hx
    simp only [FS.rename, List.mem_map] at hx
    obtain ⟨y, hy, rfl⟩ := hx
    simp only [rewriteP]
    split
    · rename_i hpre
      obtain ⟨t, ht⟩ := isPre_iff.mp hpre
      rw [ht, List.drop_left]
      rw [List.append_assoc, List.singleton_append]
      exact isPre_append_singleton target j' j t ▸ (by simp [hne])
    · exact hd y hy

theorem flatten_fold_moved (target : Fpath) (e : String) (L : List String)
    (st : FS) (it : String) (s : Fpath)
    (hmem : it ∈ L) (hnd : L.Nodup) (he : e ∉ L)
    (hclean : ∀ j ∈ L,
      (∀ x ∈ st.files, isPre (target ++ [j]) x.1 = false) ∧
      (∀ x ∈ st.dirs, isPre (target ++ [j]) x = false)) :
    (L.foldl (fun acc i => acc.rename ((target ++ [e]) ++ [i])
        (target ++ [i])) st).fileData ((target ++ [it]) ++ s) =
      st.fileData (((target ++ [e]) ++ [it]) ++ s) ∧
    (L.foldl (fun acc i => acc.rename ((target ++ [e]) ++ [i])
        (target ++ [i])) st).isDir ((target ++ [it]) ++ s) =
      st.isDir (((target ++ [e]) ++ [it]) ++ s) := by
  induction L generalizing st with
  | nil => cases hmem
  | cons j L ih =>
    simp only [List.foldl_cons]
    have hej : e ≠ j := fun h => he (h ▸ List.mem_cons_self j L)
    by_cases hj : j = it
    · subst hj
      have hcj := hclean j (List.mem_cons_self j L)
      have hmoveF := @fileData_rename_moved st ((target ++ [e]) ++ [j])
        (target ++ [j]) s hcj.1
      have hmoveD := @isDir_rename_moved st ((target ++ [e]) ++ [j])
        (target ++ [j]) s hcj.2
      have hnodup : j ∉ L := (List.nodup_cons.mp hnd).1
      have hout := flatten_fold_out target (target ++ [e]) L
        (st.rename ((target ++ [e]) ++ [j]) (target ++ [j]))
        ((target ++ [j]) ++ s)
        (fun j' _ => by
          rw [List.append_assoc target [e] [j'], List.singleton_append,
            List.append_assoc target [j] s, List.singleton_append,
            isPre_append_same]
          exact isPre_cons_ne _ _ hej)
        (fun j' hj' => by
          rw [List.append_assoc target [j] s, List.singleton_append,
            isPre_append_singleton]
          exact beq_eq_false_iff_ne.mpr (fun hh => hnodup (hh ▸ hj')))
      rw [hout.1, hout.2, hmoveF, hmoveD]
      exact ⟨rfl, rfl⟩
    · have h1 : isPre ((target ++ [e]) ++ [j])
          (((target ++ [e]) ++ [it]) ++ s) = false := by
        rw [List.append_assoc (target ++ [e]) [it] s, List.singleton_append,
          isPre_append_singleton]
        exact beq_eq_false_iff_ne.mpr hj
      have h2 : isPre (target ++ [j])
          (((target ++ [e]) ++ [it]) ++ s) = false := by
        rw [List.append_assoc (target ++ [e]) [it] s, List.singleton_append,
          List.append_assoc target [e] (it :: s), List.singleton_append,
          isPre_append_singleton]
        exact beq_eq_false_iff_ne.mpr (Ne.symm hej)
      have hstepF := @fileData_rename_of_not st ((target ++ [e]) ++ [j])
        (target ++ [j]) _ h1 h2
      have hstepD := @isDir_rename_of_not st ((target ++ [e]) ++ [j])
        (target ++ [j]) _ h1 h2
      have hmem' : it ∈ L := by
        rcases List.mem_cons.mp hmem with h | h
        · exact absurd h.symm hj
        · exact h
      have hnodupJ : j ∉ L := (List.nodup_cons.mp hnd).1
      have hih := ih (st.rename ((target ++ [e]) ++ [j]) (target ++ [j]))
        hmem' (List.nodup_cons.mp hnd).2
        (fun h => he (List.mem_cons_of_mem j h))
        (fun j' hj' =>
          flatten_clean_step (fun hh => hnodupJ (hh ▸ hj'))
            (hclean j' (List.mem_cons_of_mem j hj')).1
            (hclean j' (List.mem_cons_of_mem j hj')).2)
      rw [hih.1, hih.2, hstepF, hstepD]
      exact ⟨rfl, rfl⟩

/-! ### Skip-branch shapes of `download_and_unzip` -/

theorem daz_exists_flatten {net : String → Response} {fs : FS}
    {downloadPath tempDir : Fpath} {url dataset : String}
    {subfolder : Option String}
    (h : fs.pathExists (targetDir downloadPath dataset subfolder) = true) :
    download_and_unzip net fs downloadPath tempDir url dataset subfolder
        true =
      ⟨(flattenStep fs (targetDir downloadPath dataset subfolder)).1, 0,
        false,
        (flattenStep fs (targetDir downloadPath dataset subfolder)).2.1,
        (flattenStep fs (targetDir downloadPath dataset subfolder)).2.2,
        none⟩ := by
  unfold download_and_unzip
  simp only [h, if_true]

theorem daz_exists_noflatten {net : String → Response} {fs : FS}
    {downloadPath tempDir : Fpath} {url dataset : String}
    {subfolder : Option String}
    (h : fs.pathExists (targetDir downloadPath dataset subfolder) = true) :
    download_and_unzip net fs downloadPath tempDir url dataset subfolder
        false = ⟨fs, 0, false, false, false, none⟩ := by
  unfold download_and_unzip
  simp only [h, if_true, Bool.false_eq_true, if_false]

/-- C10: with flattening requested, when the target directory holds exactly
one immediate subdirectory together with at least one further entry (more
than one entry in total, only one of them a directory), the flatten step
does nothing and warns about nothing: the filesystem is returned
unchanged, with no flatten and no warning recorded. -/
theorem flatten_one_dir_extra_entries_noop (net : String → Response)
    (fs : FS) (downloadPath tempDir : Fpath) (url dataset : String)
    (subfolder : Option String)
    (h : fs.pathExists (targetDir downloadPath dataset subfolder) = true)
    (hdir : (dirChildren fs (targetDir downloadPath dataset subfolder)).length
      = 1)
    (hlen : 2 ≤ (fs.children (targetDir downloadPath dataset subfolder)).length) :
    download_and_unzip net fs downloadPath tempDir url dataset subfolder
      true = ⟨fs, 0, false, false, false, none⟩ := by
  rw [daz_exists_flatten h]
  have hstep : flattenStep fs (targetDir downloadPath dataset subfolder) =
      (fs, false, false) := by
    rcases hc : fs.children (targetDir downloadPath dataset subfolder) with
      _ | ⟨a, _ | ⟨b, tl⟩⟩
    · rw [hc] at hlen
      simp at hlen
    · rw [hc] at hlen
      simp at hlen
    · unfold dirChildren at hdir
      rw [hc] at hdir
      unfold flattenStep
      simp only [h, if_true, hc, hdir]
      rfl
  rw [hstep]

/-- Witness for C10: target `t` contains file `f.txt` and directory `a`. -/
theorem flatten_one_dir_extra_entries_noop_witness :
    download_and_unzip (fun _ => ⟨Data.raw "x", true⟩)
      ⟨[(["t", "f.txt"], Data.raw "x")], [["t"], ["t", "a"]]⟩ [] ["tmp"] "u"
      "t" none true =
      ⟨⟨[(["t", "f.txt"], Data.raw "x")], [["t"], ["t", "a"]]⟩, 0, false,
        false, false, none⟩ :=
  flatten_one_dir_extra_entries_noop _ _ _ _ _ _ _ (by decide) (by decide)
    (by decide)

/-- C5: with flattening requested, the flatten step of `download_and_unzip`
case-splits on the immediate children of the target directory: more than
one immediate subdirectory — skipped with a warning; exactly one immediate
entry in total and it is a directory — its contents (files and
subdirectories, at every depth) are moved up into the target and the
now-empty directory is removed; exactly one immediate entry and it is a
file — no flattening occurs. -/
theorem flatten_case_split (net : String → Response) (fs : FS)
    (downloadPath tempDir target : Fpath) (url dataset : String)
    (subfolder : Option String) (e : String)
    (htd : targetDir downloadPath dataset subfolder = target)
    (h : fs.pathExists target = true) :
    (1 < (dirChildren fs target).length →
      download_and_unzip net fs downloadPath tempDir url dataset subfolder
        true = ⟨fs, 0, false, false, true, none⟩) ∧
    (fs.children target = [e] →
      fs.isDir (target ++ [e]) = true →
      fs.isFile (target ++ [e]) = false →
      e ∉ fs.children (target ++ [e]) →
      (download_and_unzip net fs downloadPath tempDir url dataset subfolder
          true).flattened = true ∧
      (download_and_unzip net fs downloadPath tempDir url dataset subfolder
          true).warned = false ∧
      (∀ it ∈ fs.children (target ++ [e]), ∀ s : Fpath,
        (download_and_unzip net fs downloadPath tempDir url dataset subfolder
            true).fs.fileData ((target ++ [it]) ++ s) =
          fs.fileData (((target ++ [e]) ++ [it]) ++ s) ∧
        (download_and_unzip net fs downloadPath tempDir url dataset subfolder
            true).fs.isDir ((target ++ [it]) ++ s) =
          fs.isDir (((target ++ [e]) ++ [it]) ++ s)) ∧
      (download_and_unzip net fs downloadPath tempDir url dataset subfolder
          true).fs.pathExists (target ++ [e]) = false) ∧
    (fs.children target = [e] →
      fs.isDir (target ++ [e]) = false →
      download_and_unzip net fs downloadPath tempDir url dataset subfolder
        true = ⟨fs, 0, false, false, false, none⟩) := by
  subst htd
  set target := targetDir downloadPath dataset subfolder with htarget
  have hdaz := @daz_exists_flatten net _ _ tempDir url _ _ h
  refine ⟨?_, ?_, ?_⟩
  · intro hgt
    have hstep : flattenStep fs target = (fs, false, true) := by
      unfold flattenStep
      simp only [h, if_true]
      rw [if_pos (by unfold dirChildren at hgt; exact hgt)]
    rw [hdaz, hstep]
  · intro hcs hisd hnf he
    have hfil : List.filter (fun x => fs.isDir (target ++ [x])) [e] =
        [e] := by
      simp [List.filter, hisd]
    have hstep : flattenStep fs target =
        (((fs.children (target ++ [e])).foldl
            (fun acc it => acc.rename ((target ++ [e]) ++ [it])
              (target ++ [it])) fs).rmdirEntry (target ++ [e]), true,
          false) := by
      unfold flattenStep
      simp only [h, if_true, hcs, hfil, List.length_cons, List.length_nil,
        hisd]
      rfl
    have hclean : ∀ j ∈ fs.children (target ++ [e]),
        (∀ x ∈ fs.files, isPre (target ++ [j]) x.1 = false) ∧
        (∀ x ∈ fs.dirs, isPre (target ++ [j]) x = false) := by
      intro j hj
      have hje : j ≠ e := fun hh => he (hh ▸ hj)
      constructor
      · intro x hx
        cases hP : isPre (target ++ [j]) x.1 with
        | false => rfl
        | true =>
          exfalso
          obtain ⟨t, ht⟩ := isPre_iff.mp hP
          have hmem : j ∈ fs.children target := by
            rw [mem_children_iff]
            refine ⟨t, ?_⟩
            rw [← List.singleton_append, ← List.append_assoc, ← ht]
            exact mem_allPaths_of_files hx
          rw [hcs] at hmem
          exact hje (List.mem_singleton.mp hmem)
      · intro x hx
        cases hP : isPre (target ++ [j]) x with
        | false => rfl
        | true =>
          exfalso
          obtain ⟨t, ht⟩ := isPre_iff.mp hP
          have hmem : j ∈ fs.children target := by
            rw [mem_children_iff]
            refine ⟨t, ?_⟩
            rw [← List.singleton_append, ← List.append_assoc, ← ht]
            exact mem_allPaths_of_dirs hx
          rw [hcs] at hmem
          exact hje (List.mem_singleton.mp hmem)
    refine ⟨by rw [hdaz, hstep], by rw [hdaz, hstep], ?_, ?_⟩
    · intro it hit s
      have hmoved := flatten_fold_moved target e
        (fs.children (target ++ [e])) fs it s hit
        (children_nodup fs (target ++ [e])) he hclean
      have hne : (target ++ [it]) ++ s ≠ target ++ [e] := by
        intro heq
        rw [List.append_assoc] at heq
        have h1 := List.append_cancel_left heq
        rw [List.singleton_append] at h1
        have h2 : it = e := by injection h1
        exact he (h2 ▸ hit)
      constructor
      · rw [hdaz, hstep]
        simp only [fileData_rmdirEntry]
        exact hmoved.1
      · rw [hdaz, hstep]
        rw [isDir_rmdirEntry_of_ne hne]
        exact hmoved.2
    · rw [hdaz, hstep]
      have hout := flatten_fold_out target (target ++ [e])
        (fs.children (target ++ [e])) fs (target ++ [e])
        (fun j _ => isPre_false_of_lt (by simp))
        (fun j hj => by
          have hje : j ≠ e := fun hh => he (hh ▸ hj)
          have : target ++ [e] = target ++ e :: [] := rfl
          rw [this, isPre_append_singleton]
          exact beq_eq_false_iff_ne.mpr hje)
      rw [FS.pathExists, Bool.or_eq_false_iff]
      constructor
      · rw [isFile_eq_isSome, fileData_rmdirEntry, hout.1,
          ← isFile_eq_isSome, hnf]
      · exact isDir_rmdirEntry_self _ _
  · intro hcs hnd
    have hfil : List.filter (fun x => fs.isDir (target ++ [x])) [e] =
        [] := by
      simp [List.filter, hnd]
    have hstep : flattenStep fs target = (fs, false, false) := by
      unfold flattenStep
      simp only [h, if_true, hcs, hfil, hnd, Bool.false_eq_true, if_false]
      rfl
    rw [hdaz, hstep]

/-- Witness for C5: the single-directory case on the fixture, through
`download_and_unzip` with flattening requested. -/
theorem flatten_case_split_witness :
    (download_and_unzip (fun _ => ⟨Data.raw "x", true⟩) fsSingleDir []
        ["tmp"] "u" "t" none true).flattened = true ∧
    (download_and_unzip (fun _ => ⟨Data.raw "x", true⟩) fsSingleDir []
        ["tmp"] "u" "t" none true).warned = false ∧
    (∀ it ∈ fsSingleDir.children (["t"] ++ ["sub"]), ∀ s : Fpath,
      (download_and_unzip (fun _ => ⟨Data.raw "x", true⟩) fsSingleDir []
          ["tmp"] "u" "t" none true).fs.fileData ((["t"] ++ [it]) ++ s) =
        fsSingleDir.fileData (((["t"] ++ ["sub"]) ++ [it]) ++ s) ∧
      (download_and_unzip (fun _ => ⟨Data.raw "x", true⟩) fsSingleDir []
          ["tmp"] "u" "t" none true).fs.isDir ((["t"] ++ [it]) ++ s) =
        fsSingleDir.isDir (((["t"] ++ ["sub"]) ++ [it]) ++ s)) ∧
    (download_and_unzip (fun _ => ⟨Data.raw "x", true⟩) fsSingleDir []
        ["tmp"] "u" "t" none true).fs.pathExists (["t"] ++ ["sub"]) =
      false :=
  (flatten_case_split (fun _ => ⟨Data.raw "x", true⟩) fsSingleDir [] ["tmp"]
      ["t"] "u" "t" none "sub" rfl (by decide)).2.1 (by decide) (by decide)
    (by decide) (by decide)

theorem daz_skip_stats {net : String → Response} {fs : FS}
    {downloadPath tempDir : Fpath} {url dataset : String}
    {subfolder : Option String} {fl : Bool}
    (h : fs.pathExists (targetDir downloadPath dataset subfolder) = true) :
    (download_and_unzip net fs downloadPath tempDir url dataset subfolder
      fl).transfers = 0 ∧
    (download_and_unzip net fs downloadPath tempDir url dataset subfolder
      fl).extracted = false ∧
    (download_and_unzip net fs downloadPath tempDir url dataset subfolder
      fl).err = none := by
  cases fl with
  | true => rw [daz_exists_flatten h]; exact ⟨rfl, rfl, rfl⟩
  | false => rw [daz_exists_noflatten h]; exact ⟨rfl, rfl, rfl⟩

theorem daz_shape_derr {net : String → Response} {fs : FS}
    {downloadPath tempDir : Fpath} {url dataset : String}
    {subfolder : Option String} {fl : Bool} {e : Err}
    (hex : fs.pathExists (targetDir downloadPath dataset subfolder) = false)
    (hd : (download net (fs.mkdirAll tempDir) url
      (tempDir ++ [dataset ++ ".zip"])).err = some e) :
    download_and_unzip net fs downloadPath tempDir url dataset subfolder fl =
      ⟨(download net (fs.mkdirAll tempDir) url
          (tempDir ++ [dataset ++ ".zip"])).fs.removeTree tempDir,
        (download net (fs.mkdirAll tempDir) url
          (tempDir ++ [dataset ++ ".zip"])).transfers, false, false, false,
        some e⟩ := by
  unfold download_and_unzip
  simp only [hex, Bool.false_eq_true, if_false, hd]

theorem daz_shape_uerr {net : String → Response} {fs : FS}
    {downloadPath tempDir : Fpath} {url dataset : String}
    {subfolder : Option String} {fl : Bool} {e : Err}
    (hex : fs.pathExists (targetDir downloadPath dataset subfolder) = false)
    (hd : (download net (fs.mkdirAll tempDir) url
      (tempDir ++ [dataset ++ ".zip"])).err = none)
    (hu : (unzip (download net (fs.mkdirAll tempDir) url
        (tempDir ++ [dataset ++ ".zip"])).fs (tempDir ++ [dataset ++ ".zip"])
        (targetDir downloadPath dataset subfolder) []).err = some e) :
    download_and_unzip net fs downloadPath tempDir url dataset subfolder fl =
      ⟨(unzip (download net (fs.mkdirAll tempDir) url
          (tempDir ++ [dataset ++ ".zip"])).fs
          (tempDir ++ [dataset ++ ".zip"])
          (targetDir downloadPath dataset subfolder) []).fs.removeTree
            tempDir,
        (download net (fs.mkdirAll tempDir) url
          (tempDir ++ [dataset ++ ".zip"])).transfers, false, false, false,
        some e⟩ := by
  unfold download_and_unzip
  simp only [hex, Bool.false_eq_true, if_false, hd, hu]

theorem daz_shape_ok {net : String → Response} {fs : FS}
    {downloadPath tempDir : Fpath} {url dataset : String}
    {subfolder : Option String} {fl : Bool}
    (hex : fs.pathExists (targetDir downloadPath dataset subfolder) = false)
    (hd : (download net (fs.mkdirAll tempDir) url
      (tempDir ++ [dataset ++ ".zip"])).err = none)
    (hu : (unzip (download net (fs.mkdirAll tempDir) url
        (tempDir ++ [dataset ++ ".zip"])).fs (tempDir ++ [dataset ++ ".zip"])
        (targetDir downloadPath dataset subfolder) []).err = none) :
    download_and_unzip net fs downloadPath tempDir url dataset subfolder fl =
      ⟨(if fl then
          (flattenStep ((unzip (download net (fs.mkdirAll tempDir) url
            (tempDir ++ [dataset ++ ".zip"])).fs
            (tempDir ++ [dataset ++ ".zip"])
            (targetDir downloadPath dataset subfolder) []).fs.removeTree
              tempDir) (targetDir downloadPath dataset subfolder)).1
        else (unzip (download net (fs.mkdirAll tempDir) url
          (tempDir ++ [dataset ++ ".zip"])).fs
          (tempDir ++ [dataset ++ ".zip"])
          (targetDir downloadPath dataset subfolder) []).fs.removeTree
            tempDir),
        (download net (fs.mkdirAll tempDir) url
          (tempDir ++ [dataset ++ ".zip"])).transfers,
        (unzip (download net (fs.mkdirAll tempDir) url
          (tempDir ++ [dataset ++ ".zip"])).fs (tempDir ++ [dataset ++ ".zip"])
          (targetDir downloadPath dataset subfolder) []).extracted,
        (if fl then
          (flattenStep ((unzip (download net (fs.mkdirAll tempDir) url
            (tempDir ++ [dataset ++ ".zip"])).fs
            (tempDir ++ [dataset ++ ".zip"])
            (targetDir downloadPath dataset subfolder) []).fs.removeTree
              tempDir) (targetDir downloadPath dataset subfolder)).2.1
        else false),
        (if fl then
          (flattenStep ((unzip (download net (fs.mkdirAll tempDir) url
            (tempDir ++ [dataset ++ ".zip"])).fs
            (tempDir ++ [dataset ++ ".zip"])
            (targetDir downloadPath dataset subfolder) []).fs.removeTree
              tempDir) (targetDir downloadPath dataset subfolder)).2.2
        else false), none⟩ := by
  unfold download_and_unzip
  simp only [hex, Bool.false_eq_true, if_false, hd, hu]
  cases fl with
  | true => simp
  | false => simp

theorem isDir_extractAll_mono {fs : FS} {base : Fpath}
    {entries : List ZipEntry} {q : Fpath} (h : fs.isDir q = true) :
    (extractAll fs base entries).isDir q = true := by
  induction entries generalizing fs with
  | nil => exact h
  | cons m ms ih =>
    simp only [extractAll, List.foldl_cons]
    exact ih (by
      rw [isDir_writeFile]
      exact isDir_mkdirAll.mpr (Or.inr h))

theorem flattenStep_isDir_target {fs : FS} {target : Fpath}
    (h : fs.isDir target = true) :
    (flattenStep fs target).1.isDir target = true := by
  unfold flattenStep
  cases hpe : fs.pathExists target with
  | false =>
    simp only [hpe, Bool.false_eq_true, if_false]
    exact h
  | true =>
    simp only [hpe, if_true]
    split
    · exact h
    · split
      · rename_i e heq
        split
        · have hout := flatten_fold_out target (target ++ [e])
            (fs.children (target ++ [e])) fs target
            (fun j _ => isPre_false_of_lt (by simp))
            (fun j _ => isPre_false_of_lt (by simp))
          have hne : target ≠ target ++ [e] := by
            intro hh
            have := congrArg List.length hh
            simp at this
          rw [isDir_rmdirEntry_of_ne hne, hout.2]
          exact h
        · exact h
      · exact h

theorem unzip_extracted_form {fs : FS} {zfp uzp pt : Fpath}
    (hx : (unzip fs zfp uzp pt).extracted = true) :
    ∃ entries,
      (fs.mkdirAll (appendToLast uzp "_tmp")).fileData zfp =
        some (Data.zip entries) ∧
      findLongEntry (appendToLast uzp "_tmp") entries = none ∧
      fs.pathExists (uzp ++ pt) = false ∧
      unzip fs zfp uzp pt =
        ⟨(extractAll (fs.mkdirAll (appendToLast uzp "_tmp"))
            (appendToLast uzp "_tmp") entries).rename
            (appendToLast uzp "_tmp") uzp, true, none⟩ := by
  by_cases hex : fs.pathExists (uzp ++ pt) = true
  · rw [unzip_of_exists hex] at hx
    cases hx
  · have hex' : fs.pathExists (uzp ++ pt) = false := by
      revert hex; cases fs.pathExists (uzp ++ pt) <;> simp
    rcases hfd : (fs.mkdirAll (appendToLast uzp "_tmp")).fileData zfp
      with _ | d
    · unfold unzip at hx
      rw [if_neg (by simp [hex'])] at hx
      simp only [hfd] at hx
      cases hx
    · cases d with
      | raw b =>
        unfold unzip at hx
        rw [if_neg (by simp [hex'])] at hx
        simp only [hfd] at hx
        cases hx
      | zip entries =>
        rcases hlen : findLongEntry (appendToLast uzp "_tmp") entries
          with _ | m
        · exact ⟨entries, rfl, hlen, hex', unzip_of_zip hex' hfd hlen⟩
        · rw [unzip_of_long hex' hfd hlen] at hx
          cases hx

theorem daz_extracted_exists {net : String → Response} {fs : FS}
    {downloadPath tempDir : Fpath} {url dataset : String}
    {subfolder : Option String} {fl : Bool}
    (htd : isPre tempDir (targetDir downloadPath dataset subfolder) = false)
    (hx : (download_and_unzip net fs downloadPath tempDir url dataset
      subfolder fl).extracted = true) :
    (download_and_unzip net fs downloadPath tempDir url dataset subfolder
      fl).fs.pathExists (targetDir downloadPath dataset subfolder) =
      true := by
  by_cases hex : fs.pathExists (targetDir downloadPath dataset subfolder) =
      true
  · have := (@daz_skip_stats net _ _ tempDir url _ _ fl hex).2.1
    rw [this] at hx
    cases hx
  · have hex' : fs.pathExists (targetDir downloadPath dataset subfolder) =
        false := by
      revert hex
      cases fs.pathExists (targetDir downloadPath dataset subfolder) <;> simp
    rcases hd : (download net (fs.mkdirAll tempDir) url
        (tempDir ++ [dataset ++ ".zip"])).err with _ | e
    · rcases hu : (unzip (download net (fs.mkdirAll tempDir) url
          (tempDir ++ [dataset ++ ".zip"])).fs (tempDir ++ [dataset ++ ".zip"])
          (targetDir downloadPath dataset subfolder) []).err with _ | e
      · rw [daz_shape_ok hex' hd hu] at hx ⊢
        simp only at hx ⊢
        obtain ⟨entries, hfd, hlen, hskip, hform⟩ := unzip_extracted_form hx
        have h1 : ((download net (fs.mkdirAll tempDir) url
            (tempDir ++ [dataset ++ ".zip"])).fs.mkdirAll
            (appendToLast (targetDir downloadPath dataset subfolder)
              "_tmp")).isDir
            (appendToLast (targetDir downloadPath dataset subfolder)
              "_tmp") = true :=
          isDir_mkdirAll_self appendToLast_ne_nil
        have h2 := @isDir_extractAll_mono _
          (appendToLast (targetDir downloadPath dataset subfolder) "_tmp")
          entries _ h1
        have h3 := isDir_rename_self
          (targetDir downloadPath dataset subfolder) h2
        rw [hform]
        simp only
        have h4 : (((extractAll ((download net (fs.mkdirAll tempDir) url
            (tempDir ++ [dataset ++ ".zip"])).fs.mkdirAll
              (appendToLast (targetDir downloadPath dataset subfolder)
                "_tmp"))
            (appendToLast (targetDir downloadPath dataset subfolder) "_tmp")
            entries).rename
            (appendToLast (targetDir downloadPath dataset subfolder) "_tmp")
            (targetDir downloadPath dataset subfolder)).removeTree
              tempDir).isDir
            (targetDir downloadPath dataset subfolder) = true := by
          rw [isDir_removeTree_of_not htd]
          exact h3
        cases fl with
        | true =>
          simp only [if_true]
          rw [FS.pathExists, flattenStep_isDir_target h4, Bool.or_true]
        | false =>
          simp only [Bool.false_eq_true, if_false]
          rw [FS.pathExists, h4, Bool.or_true]
      · rw [daz_shape_uerr hex' hd hu] at hx
        cases hx
    · rw [daz_shape_derr hex' hd] at hx
      cases hx

/-- C1: when the target directory `download_path/dataset[/subfolder]`
already exists, `download_and_unzip` performs no download and no
extraction; and across two consecutive calls with the same dataset and
subfolder the extraction runs at most once, because a call that extracts
leaves the target directory in existence, which makes the next call
skip. -/
theorem download_and_unzip_idempotent (net : String → Response) (fs : FS)
    (downloadPath tempDir1 tempDir2 : Fpath) (url dataset : String)
    (subfolder : Option String) (fl : Bool)
    (htd : isPre tempDir1 (targetDir downloadPath dataset subfolder) =
      false) :
    (fs.pathExists (targetDir downloadPath dataset subfolder) = true →
      (download_and_unzip net fs downloadPath tempDir1 url dataset subfolder
        fl).transfers = 0 ∧
      (download_and_unzip net fs downloadPath tempDir1 url dataset subfolder
        fl).extracted = false) ∧
    ¬((download_and_unzip net fs downloadPath tempDir1 url dataset subfolder
        fl).extracted = true ∧
      (download_and_unzip net
        (download_and_unzip net fs downloadPath tempDir1 url dataset
          subfolder fl).fs downloadPath tempDir2 url dataset subfolder
        fl).extracted = true) := by
  constructor
  · intro hex
    exact ⟨(daz_skip_stats hex).1, (daz_skip_stats hex).2.1⟩
  · rintro ⟨h1, h2⟩
    have hx := daz_extracted_exists htd h1
    have hskip := (@daz_skip_stats net _ _ tempDir2 url _ _ fl hx).2.1
    rw [hskip] at h2
    cases h2

/-- Witness for C1 at a concrete archive download. -/
theorem download_and_unzip_idempotent_witness :
    ((⟨[], []⟩ : FS).pathExists (targetDir ["cache"] "ds" none) = true →
      (download_and_unzip (fun _ => ⟨Data.zip [⟨["a.txt"], "A"⟩], true⟩)
        ⟨[], []⟩ ["cache"] ["tmp1"] "u" "ds" none false).transfers = 0 ∧
      (download_and_unzip (fun _ => ⟨Data.zip [⟨["a.txt"], "A"⟩], true⟩)
        ⟨[], []⟩ ["cache"] ["tmp1"] "u" "ds" none false).extracted =
        false) ∧
    ¬((download_and_unzip (fun _ => ⟨Data.zip [⟨["a.txt"], "A"⟩], true⟩)
        ⟨[], []⟩ ["cache"] ["tmp1"] "u" "ds" none false).extracted = true ∧
      (download_and_unzip (fun _ => ⟨Data.zip [⟨["a.txt"], "A"⟩], true⟩)
        (download_and_unzip (fun _ => ⟨Data.zip [⟨["a.txt"], "A"⟩], true⟩)
          ⟨[], []⟩ ["cache"] ["tmp1"] "u" "ds" none false).fs ["cache"]
        ["tmp2"] "u" "ds" none false).extracted = true) :=
  download_and_unzip_idempotent _ _ _ _ _ _ _ _ _ (by decide)

theorem extractAll_cons (fs : FS) (base : Fpath) (m : ZipEntry)
    (ms : List ZipEntry) :
    extractAll fs base (m :: ms) =
      extractAll ((fs.mkdirAll (base ++ m.name).dropLast).writeFile
        (base ++ m.name) (Data.raw m.data)) base ms := rfl

theorem fileData_extractAll_of_ne {fs : FS} {base : Fpath}
    {entries : List ZipEntry} {q : Fpath}
    (h : ∀ m ∈ entries, base ++ m.name ≠ q) :
    (extractAll fs base entries).fileData q = fs.fileData q := by
  induction entries generalizing fs with
  | nil => rfl
  | cons m ms ih =>
    rw [extractAll_cons]
    rw [ih (fun m' hm' => h m' (by simp [hm']))]
    rw [fileData_writeFile, if_neg (fun hh => h m (by simp) hh.symm),
      fileData_mkdirAll]

theorem fileData_extractAll_mem {fs : FS} {base : Fpath}
    {entries : List ZipEntry}
    (hnd : (entries.map (·.name)).Nodup) {m : ZipEntry} (hm : m ∈ entries) :
    (extractAll fs base entries).fileData (base ++ m.name) =
      some (Data.raw m.data) := by
  induction entries generalizing fs with
  | nil => cases hm
  | cons m0 ms ih =>
    rw [List.map_cons, List.nodup_cons] at hnd
    rw [extractAll_cons]
    rcases List.mem_cons.mp hm with rfl | hmem
    · rw [fileData_extractAll_of_ne (fun m' hm' hh => by
        have heq := List.append_cancel_left hh
        exact hnd.1 (heq ▸ List.mem_map.mpr ⟨m', hm', rfl⟩))]
      rw [fileData_writeFile, if_pos rfl]
    · exact ih hnd.2 hmem

theorem extractAll_files_pred {fs : FS} {base : Fpath}
    {entries : List ZipEntry} (P : Fpath × Data → Prop)
    (hfs : ∀ e ∈ fs.files, P e)
    (hnew : ∀ m ∈ entries, P (base ++ m.name, Data.raw m.data)) :
    ∀ e ∈ (extractAll fs base entries).files, P e := by
  induction entries generalizing fs with
  | nil => exact hfs
  | cons m ms ih =>
    rw [extractAll_cons]
    apply ih
    · intro e he
      simp only [FS.writeFile, FS.mkdirAll, List.mem_cons] at he
      rcases he with rfl | he
      · exact hnew m (by simp)
      · exact hfs e (List.mem_of_mem_filter he)
    · intro m' hm'
      exact hnew m' (by simp [hm'])

/-- C6: `unzip` skips entirely when `destinationDir/existenceTestSubpath`
exists (an empty subpath testing the destination itself); otherwise, on a
region of the filesystem with nothing at or below the destination, it
stages the extraction in the sibling `_tmp` directory and publishes it by
a single rename: the call succeeds, every archive member is present under
the destination with its data, the destination exists, and the temporary
sibling is gone. -/
theorem unzip_skip_and_atomic_success (fs fs0 : FS)
    (zipFilePath unzipPath pathTest : Fpath) (entries : List ZipEntry)
    (huzp : unzipPath ≠ [])
    (hzip : fs.fileData zipFilePath = some (Data.zip entries))
    (hshort : ∀ m ∈ entries,
      pathStrLen (appendToLast unzipPath "_tmp" ++ m.name) ≤ 260)
    (hnd : (entries.map (·.name)).Nodup)
    (hfresh : ∀ q ∈ fs.allPaths, isPre unzipPath q = false) :
    (fs0.pathExists (unzipPath ++ pathTest) = true →
      unzip fs0 zipFilePath unzipPath pathTest = ⟨fs0, false, none⟩) ∧
    (unzip fs zipFilePath unzipPath pathTest).err = none ∧
    (unzip fs zipFilePath unzipPath pathTest).extracted = true ∧
    (∀ m ∈ entries, (unzip fs zipFilePath unzipPath pathTest).fs.fileData
      (unzipPath ++ m.name) = some (Data.raw m.data)) ∧
    (unzip fs zipFilePath unzipPath pathTest).fs.pathExists unzipPath =
      true ∧
    (unzip fs zipFilePath unzipPath pathTest).fs.pathExists
      (appendToLast unzipPath "_tmp") = false := by
  have hex' : fs.pathExists (unzipPath ++ pathTest) = false := by
    cases hpe : fs.pathExists (unzipPath ++ pathTest) with
    | false => rfl
    | true =>
      have hm := pathExists_iff_mem.mp hpe
      have := hfresh _ hm
      rw [isPre_append] at this
      cases this
  have hfd : (fs.mkdirAll (appendToLast unzipPath "_tmp")).fileData
      zipFilePath = some (Data.zip entries) := by
    rw [fileData_mkdirAll]
    exact hzip
  have hlen : findLongEntry (appendToLast unzipPath "_tmp") entries =
      none := by
    apply List.find?_eq_none.mpr
    intro m hm
    have := hshort m hm
    simp only [decide_eq_true_eq, Bool.not_eq_true, decide_eq_false_iff_not]
    omega
  have hshape := unzip_of_zip hex' hfd hlen
  have hfs_eq : (unzip fs zipFilePath unzipPath pathTest).fs =
      (extractAll (fs.mkdirAll (appendToLast unzipPath "_tmp"))
        (appendToLast unzipPath "_tmp") entries).rename
        (appendToLast unzipPath "_tmp") unzipPath := by
    rw [hshape]
  have hP : ∀ e ∈ (extractAll
      (fs.mkdirAll (appendToLast unzipPath "_tmp"))
      (appendToLast unzipPath "_tmp") entries).files,
      isPre unzipPath e.1 = false := by
    apply extractAll_files_pred
    · intro e he
      exact hfresh e.1 (mem_allPaths_of_files he)
    · intro m _
      exact isPre_p_appLast_r m.name huzp (by decide)
  have hPtmp : isPre unzipPath (appendToLast unzipPath "_tmp") = false :=
    isPre_p_appLast huzp (by decide)
  refine ⟨fun hex => unzip_of_exists hex, ?_, ?_, ?_, ?_, ?_⟩
  · rw [hshape]
  · rw [hshape]
  · intro m hm
    rw [hfs_eq, fileData_rename_moved m.name hP]
    exact fileData_extractAll_mem hnd hm
  · rw [hfs_eq]
    have h1 : (fs.mkdirAll (appendToLast unzipPath "_tmp")).isDir
        (appendToLast unzipPath "_tmp") = true :=
      isDir_mkdirAll_self appendToLast_ne_nil
    have h2 := @isDir_extractAll_mono _
      (appendToLast unzipPath "_tmp") entries _ h1
    have h3 := isDir_rename_self unzipPath h2
    rw [FS.pathExists, h3, Bool.or_true]
  · rw [hfs_eq]
    rw [FS.pathExists, Bool.or_eq_false_iff]
    constructor
    · rw [isFile_eq_isSome, fileData_rename_out (isPre_refl _) hPtmp]
      rfl
    · exact isDir_rename_out (isPre_refl _) hPtmp

/-- Witness for C6 at a concrete two-member archive, with the skip case
exercised on a state where the destination already exists. -/
theorem unzip_skip_and_atomic_success_witness :
    ((⟨[], [["out"]]⟩ : FS).pathExists (["out"] ++ []) = true →
      unzip ⟨[], [["out"]]⟩ ["z.zip"] ["out"] [] =
        ⟨⟨[], [["out"]]⟩, false, none⟩) ∧
    (unzip ⟨[(["z.zip"], Data.zip [⟨["a.txt"], "A"⟩, ⟨["b", "c.txt"], "C"⟩])],
        []⟩ ["z.zip"] ["out"] []).err = none ∧
    (unzip ⟨[(["z.zip"], Data.zip [⟨["a.txt"], "A"⟩, ⟨["b", "c.txt"], "C"⟩])],
        []⟩ ["z.zip"] ["out"] []).extracted = true ∧
    (∀ m ∈ [(⟨["a.txt"], "A"⟩ : ZipEntry), ⟨["b", "c.txt"], "C"⟩],
      (unzip ⟨[(["z.zip"],
          Data.zip [⟨["a.txt"], "A"⟩, ⟨["b", "c.txt"], "C"⟩])], []⟩
        ["z.zip"] ["out"] []).fs.fileData (["out"] ++ m.name) =
        some (Data.raw m.data)) ∧
    (unzip ⟨[(["z.zip"], Data.zip [⟨["a.txt"], "A"⟩, ⟨["b", "c.txt"], "C"⟩])],
        []⟩ ["z.zip"] ["out"] []).fs.pathExists ["out"] = true ∧
    (unzip ⟨[(["z.zip"], Data.zip [⟨["a.txt"], "A"⟩, ⟨["b", "c.txt"], "C"⟩])],
        []⟩ ["z.zip"] ["out"] []).fs.pathExists
      (appendToLast ["out"] "_tmp") = false :=
  unzip_skip_and_atomic_success
    ⟨[(["z.zip"], Data.zip [⟨["a.txt"], "A"⟩, ⟨["b", "c.txt"], "C"⟩])], []⟩
    ⟨[], [["out"]]⟩ ["z.zip"] ["out"] []
    [⟨["a.txt"], "A"⟩, ⟨["b", "c.txt"], "C"⟩] (by decide) (by decide)
    (by decide) (by decide) (by decide)

/-! ### Helper lemmas for the `move_files` subset argument -/

theorem map_eq_self_of {α : Type} {f : α → α} {l : List α}
    (h : ∀ a ∈ l, f a = a) : l.map f = l := by
  induction l with
  | nil => rfl
  | cons a as ih =>
    rw [List.map_cons, h a (by simp), ih (fun a ha => h a (by simp [ha]))]

theorem filter_all_of {α : Type} {p : α → Bool} {l : List α}
    (h : ∀ a ∈ l, p a = true) : l.filter p = l := by
  induction l with
  | nil => rfl
  | cons a as ih =>
    rw [List.filter_cons_of_pos (h a (by simp)),
      ih (fun a ha => h a (by simp [ha]))]

theorem str_append_ne {a x y : String} (h : x ≠ y) : a ++ x ≠ a ++ y := by
  intro heq
  apply h
  have hd := congrArg String.data heq
  rw [String.data_append, String.data_append] at hd
  exact String.ext (List.append_cancel_left hd)

theorem append_singleton_inj {a b : Fpath} {x y : String}
    (h : a ++ [x] = b ++ [y]) : a = b ∧ x = y := by
  have := List.append_inj' h rfl
  exact ⟨this.1, by simpa using this.2⟩

theorem isPre_or_eq_of_append_singleton {a b : Fpath} {x : String}
    (h : isPre a (b ++ [x]) = true) : isPre a b = true ∨ a = b ++ [x] := by
  obtain ⟨t, ht⟩ := isPre_iff.mp h
  rcases List.eq_nil_or_concat t with rfl | ⟨t', y, rfl⟩
  · right
    rw [ht, List.append_nil]
  · left
    rw [List.concat_eq_append, ← List.append_assoc] at ht
    obtain ⟨hab, -⟩ := append_singleton_inj ht.symm
    rw [← hab]
    exact isPre_append a t'

theorem isPre_disjoint_child {src dst : Fpath} (n : String)
    (hsd : isPre src dst = false) (hds : isPre dst src = false) :
    isPre src (dst ++ [n]) = false := by
  cases h : isPre src (dst ++ [n]) with
  | false => rfl
  | true =>
    rcases isPre_or_eq_of_append_singleton h with h' | h'
    · rw [h'] at hsd
      cases hsd
    · rw [h'] at hds
      rw [isPre_append] at hds
      cases hds

theorem childOf_append (p : Fpath) (n : String) (t : Fpath) :
    childOf p (p ++ n :: t) = some n := by
  simp [childOf, isPre_append, List.drop_left]

theorem childOf_none_of_not {p q : Fpath} (h : isPre p q = false) :
    childOf p q = none := by
  simp [childOf, h]

theorem childOf_none_of_no_child {src q : Fpath}
    (h : ∀ n : String, isPre (src ++ [n]) q = false) :
    childOf src q = none := by
  cases hp : isPre src q with
  | false => exact childOf_none_of_not hp
  | true =>
    obtain ⟨r, rfl⟩ := isPre_iff.mp hp
    cases r with
    | nil => simp [childOf, isPre_append]
    | cons n t =>
      exfalso
      have := h n
      rw [← List.singleton_append, ← List.append_assoc] at this
      rw [List.append_assoc, List.singleton_append,
        isPre_append_same] at this
      simp [isPre] at this

theorem filterMap_if_names (flist : List (String × String))
    (moved : String → Bool) :
    flist.filterMap (fun q => if moved q.1 = true then none else some q.1) =
      (flist.filter (fun q => !(moved q.1))).map Prod.fst := by
  induction flist with
  | nil => rfl
  | cons q qs ih =>
    cases hq : moved q.1 with
    | true =>
      rw [List.filterMap_cons_none (by simp [hq]),
        List.filter_cons_of_neg (by simp [hq]), ih]
    | false =>
      rw [List.filterMap_cons_some (b := q.1) (by simp [hq]),
        List.filter_cons_of_pos (by simp [hq]), List.map_cons, ih]

theorem find?_name_nodup {l : List (String × String)}
    (hnd : (l.map Prod.fst).Nodup) (n d : String) :
    (l.find? (fun q => q.1 == n) = some (n, d)) ↔ (n, d) ∈ l := by
  induction l with
  | nil => simp
  | cons q qs ih =>
    rw [List.map_cons, List.nodup_cons] at hnd
    by_cases hq : q.1 = n
    · rw [List.find?_cons_of_pos _ (by simp [hq])]
      simp only [Option.some.injEq, List.mem_cons]
      constructor
      · rintro rfl
        exact Or.inl rfl
      · rintro (rfl | hmem)
        · rfl
        · exfalso
          apply hnd.1
          rw [hq]
          exact List.mem_map.mpr ⟨(n, d), hmem, rfl⟩
    · rw [List.find?_cons_of_neg _ (by simp [hq])]
      rw [ih hnd.2]
      simp only [List.mem_cons]
      constructor
      · exact Or.inr
      · rintro (heq | hmem)
        · exact absurd (congrArg Prod.fst heq).symm hq
        · exact hmem

theorem moveState_congr {src dst : Fpath} {flist : List (String × String)}
    {rest : List (Fpath × Data)} {dirs0 : List Fpath}
    {moved moved' : String → Bool}
    (h : ∀ q ∈ flist, moved q.1 = moved' q.1) :
    moveState src dst flist rest dirs0 moved =
      moveState src dst flist rest dirs0 moved' := by
  unfold moveState
  congr 1
  congr 1
  apply List.map_congr_left
  intro q hq
  rw [h q hq]

theorem children_moveState {src dst : Fpath}
    {flist : List (String × String)} {rest : List (Fpath × Data)}
    {dirs0 : List Fpath} {moved : String → Bool}
    (hnd : (flist.map Prod.fst).Nodup)
    (hrest : ∀ e ∈ rest, isPre src e.1 = false)
    (hdirs : ∀ q ∈ dirs0, ∀ n : String, isPre (src ++ [n]) q = false)
    (hsd : isPre src dst = false) (hds : isPre dst src = false) :
    (moveState src dst flist rest dirs0 moved).children src =
      (flist.filter (fun q => !(moved q.1))).map Prod.fst := by
  unfold moveState FS.children FS.allPaths
  simp only [List.map_append, List.map_map, List.filterMap_append,
    List.append_assoc]
  have h1 : (flist.map
      ((fun e : Fpath × Data => e.1) ∘ fun q =>
        ((if moved q.1 then dst else src) ++ [q.1],
          Data.raw q.2))).filterMap (childOf src) =
      (flist.filter (fun q => !(moved q.1))).map Prod.fst := by
    rw [List.filterMap_map]
    rw [show (childOf src ∘ ((fun e : Fpath × Data => e.1) ∘ fun q =>
        ((if moved q.1 then dst else src) ++ [q.1], Data.raw q.2))) =
        fun q : String × String =>
          if moved q.1 = true then none else some q.1 from ?_]
    · exact filterMap_if_names flist moved
    · funext q
      simp only [Function.comp_apply]
      cases hq : moved q.1 with
      | true =>
        simp only [if_true]
        exact childOf_none_of_not (isPre_disjoint_child q.1 hsd hds)
      | false =>
        simp only [Bool.false_eq_true, if_false]
        exact childOf_append src q.1 []
  have h2 : (rest.map (fun e : Fpath × Data => e.1)).filterMap
      (childOf src) = [] := by
    apply List.filterMap_eq_nil_iff.mpr
    intro p hp
    obtain ⟨e, he, rfl⟩ := List.mem_map.mp hp
    exact childOf_none_of_not (hrest e he)
  have h3 : dirs0.filterMap (childOf src) = [] := by
    apply List.filterMap_eq_nil_iff.mpr
    intro q hq
    exact childOf_none_of_no_child (hdirs q hq)
  rw [h1, h2, h3, List.append_nil, List.append_nil]
  apply List.dedup_eq_self.mpr
  exact ((List.filter_sublist flist).map Prod.fst).nodup hnd

theorem rename_moveState {src dst : Fpath} {flist : List (String × String)}
    {rest : List (Fpath × Data)} {dirs0 : List Fpath}
    {moved : String → Bool} (n : String)
    (hrest : ∀ e ∈ rest, isPre src e.1 = false)
    (hdirs : ∀ q ∈ dirs0, ∀ m : String, isPre (src ++ [m]) q = false)
    (hsd : isPre src dst = false) (hds : isPre dst src = false) :
    (moveState src dst flist rest dirs0 moved).rename (src ++ [n])
        (dst ++ [n]) =
      moveState src dst flist rest dirs0
        (fun x => if x = n then true else moved x) := by
  unfold moveState FS.rename
  simp only [List.map_append, List.map_map]
  congr 1
  · congr 1
    · apply List.map_congr_left
      intro q _
      simp only [Function.comp_apply]
      by_cases hq : moved q.1 = true
      · have hP : isPre (src ++ [n]) (dst ++ [q.1]) = false := by
          cases hP : isPre (src ++ [n]) (dst ++ [q.1]) with
          | false => rfl
          | true =>
            exfalso
            rcases isPre_or_eq_of_append_singleton hP with h' | h'
            · have := isPre_trans (isPre_append src [n]) h'
              rw [hsd] at this
              cases this
            · obtain ⟨hsd', -⟩ := append_singleton_inj h'
              rw [← hsd', isPre_refl] at hds
              cases hds
        simp only [hq, if_true]
        rw [rewriteP_of_not _ hP]
        by_cases hqn : q.1 = n
        · simp [hqn, hq]
        · simp [hqn, hq]
      · have hq' : moved q.1 = false := by
          revert hq; cases moved q.1 <;> simp
        by_cases hqn : q.1 = n
        · subst hqn
          simp only [hq', Bool.false_eq_true, if_false]
          rw [rewriteP_self]
          simp
        · have hP : isPre (src ++ [n]) (src ++ [q.1]) = false := by
            have hshape : src ++ [q.1] = src ++ q.1 :: [] := rfl
            rw [hshape, isPre_append_singleton]
            exact beq_eq_false_iff_ne.mpr (Ne.symm hqn)
          simp only [hq', Bool.false_eq_true, if_false]
          rw [rewriteP_of_not _ hP]
          simp [hqn, hq']
    · apply map_eq_self_of
      intro e he
      have hP : isPre (src ++ [n]) e.1 = false := by
        cases hP : isPre (src ++ [n]) e.1 with
        | false => rfl
        | true =>
          have := isPre_trans (isPre_append src [n]) hP
          rw [hrest e he] at this
          cases this
      rw [rewriteP_of_not _ hP]
  · apply map_eq_self_of
    intro q hq
    exact rewriteP_of_not _ (hdirs q hq n)

theorem inner_fold_moveState {src dst : Fpath}
    {flist : List (String × String)} {rest : List (Fpath × Data)}
    {dirs0 : List Fpath} (pat : String) (ns : List String)
    (moved : String → Bool)
    (hrest : ∀ e ∈ rest, isPre src e.1 = false)
    (hdirs : ∀ q ∈ dirs0, ∀ m : String, isPre (src ++ [m]) q = false)
    (hsd : isPre src dst = false) (hds : isPre dst src = false) :
    ns.foldl (fun a n => if globName pat n then
        a.rename (src ++ [n]) (dst ++ [n]) else a)
      (moveState src dst flist rest dirs0 moved) =
      moveState src dst flist rest dirs0
        (fun x => moved x || (ns.contains x && globName pat x)) := by
  induction ns generalizing moved with
  | nil =>
    simp only [List.foldl_nil]
    apply moveState_congr
    intro q _
    simp
  | cons n ns' ih =>
    simp only [List.foldl_cons]
    cases hg : globName pat n with
    | false =>
      rw [if_neg (by simp [hg])]
      rw [ih moved]
      apply moveState_congr
      intro q _
      by_cases hqn : q.1 = n
      · rw [hqn]
        simp [hg]
      · simp only [List.contains_cons]
        rw [show (q.1 == n) = false from beq_eq_false_iff_ne.mpr hqn]
        simp
    | true =>
      rw [if_pos rfl]
      rw [rename_moveState n hrest hdirs hsd hds]
      rw [ih (fun x => if x = n then true else moved x)]
      apply moveState_congr
      intro q _
      by_cases hqn : q.1 = n
      · rw [hqn]
        simp [hg]
      · simp only [List.contains_cons]
        rw [show (q.1 == n) = false from beq_eq_false_iff_ne.mpr hqn]
        simp [hqn]

theorem move_fold_subset (src dst : Fpath) (patterns : List String)
    (flist : List (String × String)) (rest : List (Fpath × Data))
    (dirs0 : List Fpath) (moved : String → Bool)
    (hnd : (flist.map Prod.fst).Nodup)
    (hrest : ∀ e ∈ rest, isPre src e.1 = false)
    (hdirs : ∀ q ∈ dirs0, ∀ n : String, isPre (src ++ [n]) q = false)
    (hsd : isPre src dst = false) (hds : isPre dst src = false) :
    patterns.foldl (fun acc pat => ((acc.children src).foldl
        (fun a n => if globName pat n then a.rename (src ++ [n]) (dst ++ [n])
          else a) acc))
      (moveState src dst flist rest dirs0 moved) =
      moveState src dst flist rest dirs0
        (fun x => moved x || matchesAny patterns x) := by
  induction patterns generalizing moved with
  | nil =>
    simp only [List.foldl_nil]
    apply moveState_congr
    intro q _
    simp [matchesAny]
  | cons pat pats ih =>
    simp only [List.foldl_cons]
    rw [children_moveState hnd hrest hdirs hsd hds]
    rw [inner_fold_moveState pat _ moved hrest hdirs hsd hds]
    rw [ih _]
    apply moveState_congr
    intro q hq
    by_cases hm : moved q.1 = true
    · simp [hm]
    · have hm' : moved q.1 = false := by
        revert hm; cases moved q.1 <;> simp
      have hcont : ((flist.filter (fun q => !(moved q.1))).map
          Prod.fst).contains q.1 = true :=
        List.elem_iff.mpr (List.mem_map.mpr
          ⟨q, List.mem_filter.mpr ⟨hq, by simp [hm']⟩, rfl⟩)
      rw [hcont]
      simp [hm', matchesAny]

theorem not_pathExists_of_fresh {fs : FS} {root q : Fpath}
    (hf : ∀ p ∈ fs.allPaths, isPre root p = false)
    (hq : isPre root q = true) : fs.pathExists q = false := by
  cases hpe : fs.pathExists q with
  | false => rfl
  | true =>
    have := hf _ (pathExists_iff_mem.mp hpe)
    rw [hq] at this
    cases this

theorem pathExists_mkdirAll_of_not_mem {fs : FS} {p q : Fpath}
    (h : q ∉ initsNE p) :
    (fs.mkdirAll p).pathExists q = fs.pathExists q := by
  rw [FS.pathExists, FS.pathExists, isFile_mkdirAll,
    isDir_mkdirAll_of_not_mem h]

theorem not_mem_initsNE_of_longer {p q : Fpath} (h : p.length < q.length) :
    q ∉ initsNE p := fun hm => by
  have := isPre_length_le (mem_initsNE.mp hm).1
  omega

theorem extractAll_flat_struct (fs : FS) (base : Fpath)
    (ents : List (String × String))
    (hnd : (ents.map Prod.fst).Nodup)
    (hfiles : ∀ e ∈ fs.files, ∀ n ∈ ents.map Prod.fst,
      e.1 ≠ base ++ [n]) :
    ∃ J : List Fpath,
      (extractAll fs base (ents.map (fun q => ⟨[q.1], q.2⟩))).files =
        (ents.map (fun q => (base ++ [q.1], Data.raw q.2))).reverse ++
          fs.files ∧
      (extractAll fs base (ents.map (fun q => ⟨[q.1], q.2⟩))).dirs =
        J ++ fs.dirs ∧
      ∀ q ∈ J, q ∈ initsNE base := by
  induction ents generalizing fs with
  | nil => exact ⟨[], rfl, rfl, by simp⟩
  | cons q0 rest ih =>
    rw [List.map_cons, List.nodup_cons] at hnd
    rw [List.map_cons, extractAll_cons]
    have hbase : (base ++ (⟨[q0.1], q0.2⟩ : ZipEntry).name).dropLast =
        base := by
      show (base ++ [q0.1]).dropLast = base
      exact List.dropLast_concat
    have hfs' : ((fs.mkdirAll
        (base ++ (⟨[q0.1], q0.2⟩ : ZipEntry).name).dropLast).writeFile
        (base ++ (⟨[q0.1], q0.2⟩ : ZipEntry).name)
        (Data.raw (⟨[q0.1], q0.2⟩ : ZipEntry).data)).files =
        (base ++ [q0.1], Data.raw q0.2) :: fs.files := by
      show (base ++ [q0.1], Data.raw q0.2) ::
          fs.files.filter (fun e => !(e.1 == base ++ [q0.1])) = _
      rw [filter_all_of (fun e he => by
        simp only [Bool.not_eq_true', beq_eq_false_iff_ne]
        exact hfiles e he q0.1 (by simp))]
    have hdirs' : ((fs.mkdirAll
        (base ++ (⟨[q0.1], q0.2⟩ : ZipEntry).name).dropLast).writeFile
        (base ++ (⟨[q0.1], q0.2⟩ : ZipEntry).name)
        (Data.raw (⟨[q0.1], q0.2⟩ : ZipEntry).data)).dirs =
        initsNE base ++ fs.dirs := by
      show (initsNE ((base ++ [q0.1]).dropLast)) ++ fs.dirs = _
      rw [List.dropLast_concat]
    obtain ⟨J, hJf, hJd, hJp⟩ := ih
      ((fs.mkdirAll (base ++ (⟨[q0.1], q0.2⟩ : ZipEntry).name).dropLast
        ).writeFile (base ++ (⟨[q0.1], q0.2⟩ : ZipEntry).name)
        (Data.raw (⟨[q0.1], q0.2⟩ : ZipEntry).data))
      hnd.2
      (by
        rw [hfs']
        intro e he n hn
        rcases List.mem_cons.mp he with rfl | he'
        · simp only
          intro heq
          obtain ⟨-, hx⟩ := append_singleton_inj heq
          exact hnd.1 (hx ▸ hn)
        · exact hfiles e he' n (by simp [hn]))
    refine ⟨J ++ initsNE base, ?_, ?_, ?_⟩
    · rw [hJf, hfs']
      simp only [List.map_cons, List.reverse_cons, List.append_assoc,
        List.singleton_append]
    · rw [hJd, hdirs', List.append_assoc]
    · intro q hq
      rcases List.mem_append.mp hq with hq' | hq'
      · exact hJp q hq'
      · exact hq'

theorem ks_skip {net : String → Response} {fs : FS}
    {downloadPath tempDir : Fpath} {url : String} {patterns : List String}
    {dataset : String}
    (h : fs.pathExists (downloadPath ++ [dataset]) = true) :
    download_unzip_keep_subset net fs downloadPath tempDir url patterns
      dataset = ⟨fs, 0, none⟩ := by
  unfold download_unzip_keep_subset
  rw [if_pos h]

theorem ks_ok {net : String → Response} {fs : FS}
    {downloadPath tempDir : Fpath} {url : String} {patterns : List String}
    {dataset : String}
    (hex : fs.pathExists (downloadPath ++ [dataset]) = false)
    (hd : (download net (fs.mkdirAll tempDir) url
      (tempDir ++ [dataset ++ ".zip"])).err = none)
    (hu : (unzip (download net (fs.mkdirAll tempDir) url
        (tempDir ++ [dataset ++ ".zip"])).fs (tempDir ++ [dataset ++ ".zip"])
        (tempDir ++ [dataset]) (tempDir ++ [dataset])).err = none) :
    download_unzip_keep_subset net fs downloadPath tempDir url patterns
      dataset =
      ⟨(move_files (unzip (download net (fs.mkdirAll tempDir) url
          (tempDir ++ [dataset ++ ".zip"])).fs
          (tempDir ++ [dataset ++ ".zip"]) (tempDir ++ [dataset])
          (tempDir ++ [dataset])).fs patterns (tempDir ++ [dataset])
          (downloadPath ++ [dataset])).removeTree tempDir,
        (download net (fs.mkdirAll tempDir) url
          (tempDir ++ [dataset ++ ".zip"])).transfers, none⟩ := by
  unfold download_unzip_keep_subset
  simp only [hex, Bool.false_eq_true, if_false, hd, hu]

theorem move_files_of_not_exists {fs : FS} {patterns : List String}
    {src dst : Fpath} (h : fs.pathExists dst = false) :
    move_files fs patterns src dst =
      patterns.foldl (fun acc pat => ((acc.children src).foldl
        (fun a n => if globName pat n then a.rename (src ++ [n]) (dst ++ [n])
          else a) acc)) (fs.mkdirAll dst) := by
  unfold move_files
  rw [if_neg (by simp [h])]

theorem fileData_matched_map {tgt : Fpath} {ml : List (String × String)}
    {rest2 : List (Fpath × Data)} {dirs2 : List Fpath}
    (hnd : (ml.map Prod.fst).Nodup)
    (hrest : ∀ e ∈ rest2, isPre tgt e.1 = false) (n d : String) :
    (FS.fileData ⟨ml.map (fun q => (tgt ++ [q.1], Data.raw q.2)) ++ rest2,
        dirs2⟩ (tgt ++ [n]) = some (Data.raw d)) ↔ (n, d) ∈ ml := by
  unfold FS.fileData
  simp only
  rw [List.find?_append]
  have h2 : rest2.find? (fun e => e.1 == tgt ++ [n]) = none := by
    apply List.find?_eq_none.mpr
    intro e he
    simp only [Bool.not_eq_true, beq_eq_false_iff_ne]
    intro heq
    have := hrest e he
    rw [heq, isPre_append] at this
    cases this
  rw [h2]
  rw [List.find?_map]
  rw [find?_congr_mem (q := fun q : String × String => q.1 == n)
    (fun q _ => by
      simp only [Function.comp_apply]
      rw [Bool.eq_iff_iff]
      simp only [beq_iff_eq]
      constructor
      · intro hh
        exact (append_singleton_inj hh).2
      · intro hh
        rw [hh])]
  constructor
  · intro hsome
    rcases hfind : ml.find? (fun q => q.1 == n) with _ | q
    · rw [hfind] at hsome
      cases hsome
    · rw [hfind] at hsome
      simp only [Option.or_some, Option.map_some', Option.some.injEq,
        Data.raw.injEq] at hsome
      have hq1 : q.1 = n := by simpa using List.find?_some hfind
      have : q = (n, d) := by
        cases q
        simp only at hq1 hsome
        rw [hq1, hsome]
      rw [this] at hfind
      exact (find?_name_nodup hnd n d).mp hfind
  · intro hmem
    rw [(find?_name_nodup hnd n d).mpr hmem]
    rfl

theorem ks_unzip_state (net : String → Response) (fs : FS)
    (tempDir : Fpath) (url dataset : String)
    (entries : List (String × String))
    (hnet : net url = ⟨Data.zip (entries.map (fun q => ⟨[q.1], q.2⟩)), true⟩)
    (htd : tempDir ≠ [])
    (hnd : (entries.map Prod.fst).Nodup)
    (hshort : ∀ q ∈ entries, pathStrLen
      (appendToLast (tempDir ++ [dataset]) "_tmp" ++ [q.1]) ≤ 260)
    (H2 : ∀ q ∈ fs.allPaths, isPre tempDir q = false) :
    ∃ J2 : List Fpath,
      (unzip (download net (fs.mkdirAll tempDir) url
          (tempDir ++ [dataset ++ ".zip"])).fs
          (tempDir ++ [dataset ++ ".zip"]) (tempDir ++ [dataset])
          (tempDir ++ [dataset])).fs =
        ⟨(entries.map (fun q => (tempDir ++ [dataset] ++ [q.1],
            Data.raw q.2))).reverse ++
          ((tempDir ++ [dataset ++ ".zip"],
            Data.zip (entries.map (fun q => ⟨[q.1], q.2⟩))) :: fs.files),
          J2 ++ (initsNE tempDir ++ fs.dirs)⟩ ∧
      (∀ q ∈ J2, q ∈ initsNE (tempDir ++ [dataset ++ "_tmp"]) ∨
        q = tempDir ++ [dataset]) ∧
      (unzip (download net (fs.mkdirAll tempDir) url
          (tempDir ++ [dataset ++ ".zip"])).fs
          (tempDir ++ [dataset ++ ".zip"]) (tempDir ++ [dataset])
          (tempDir ++ [dataset])).err = none ∧
      (download net (fs.mkdirAll tempDir) url
        (tempDir ++ [dataset ++ ".zip"])).err = none ∧
      (download net (fs.mkdirAll tempDir) url
        (tempDir ++ [dataset ++ ".zip"])).transfers = 1 := by
  have hok : (net url).ok = true := by rw [hnet]
  have hbody : (net url).body =
      Data.zip (entries.map (fun q => ⟨[q.1], q.2⟩)) := by rw [hnet]
  have htlen : 1 ≤ tempDir.length := List.length_pos.mpr htd
  have htmpU : appendToLast (tempDir ++ [dataset]) "_tmp" =
      tempDir ++ [dataset ++ "_tmp"] := appendToLast_concat _ _ _
  have htmpD : appendToLast (tempDir ++ [dataset ++ ".zip"]) ".tmp" =
      tempDir ++ [dataset ++ ".zip" ++ ".tmp"] := appendToLast_concat _ _ _
  have hexD : (fs.mkdirAll tempDir).pathExists
      (tempDir ++ [dataset ++ ".zip"]) = false := by
    rw [pathExists_mkdirAll_of_not_mem (not_mem_initsNE_of_longer (by simp))]
    exact not_pathExists_of_fresh H2 (isPre_append _ _)
  have hdest : (fs.mkdirAll tempDir).pathExists
      (tempDir ++ [dataset ++ ".zip"]).dropLast = true := by
    rw [List.dropLast_concat, FS.pathExists, isDir_mkdirAll_self htd,
      Bool.or_true]
  have hdshape := @download_of_ok net _ _ _ hexD hok
  rw [if_pos hdest] at hdshape
  have hWfilter : (fs.mkdirAll tempDir).files.filter
      (fun e => !(e.1 == appendToLast (tempDir ++ [dataset ++ ".zip"])
        ".tmp")) = fs.files := by
    apply filter_all_of
    intro e he
    simp only [Bool.not_eq_true', beq_eq_false_iff_ne]
    intro heq
    have := H2 e.1 (mem_allPaths_of_files he)
    rw [heq, htmpD, isPre_append] at this
    cases this
  have hDfs : (download net (fs.mkdirAll tempDir) url
      (tempDir ++ [dataset ++ ".zip"])).fs =
      ⟨(tempDir ++ [dataset ++ ".zip"],
          Data.zip (entries.map (fun q => ⟨[q.1], q.2⟩))) :: fs.files,
        initsNE tempDir ++ fs.dirs⟩ := by
    rw [hdshape]
    show (((fs.mkdirAll tempDir).writeFile
        (appendToLast (tempDir ++ [dataset ++ ".zip"]) ".tmp")
        (net url).body).rename
        (appendToLast (tempDir ++ [dataset ++ ".zip"]) ".tmp")
        (tempDir ++ [dataset ++ ".zip"])) = _
    unfold FS.writeFile FS.rename
    simp only [hWfilter, hbody, List.map_cons, rewriteP_self]
    congr 1
    · congr 1
      apply map_eq_self_of
      intro e he
      have hP : isPre (appendToLast (tempDir ++ [dataset ++ ".zip"])
          ".tmp") e.1 = false := by
        cases hP : isPre (appendToLast (tempDir ++ [dataset ++ ".zip"])
            ".tmp") e.1 with
        | false => rfl
        | true =>
          have h1 : isPre tempDir e.1 = true := by
            apply isPre_trans _ hP
            rw [htmpD]
            exact isPre_append _ _
          rw [H2 e.1 (mem_allPaths_of_files he)] at h1
          cases h1
      rw [rewriteP_of_not _ hP]
    · show (initsNE tempDir ++ fs.dirs).map _ = _
      rw [List.map_append]
      congr 1
      · apply map_eq_self_of
        intro q hq
        apply rewriteP_of_not
        apply isPre_false_of_lt
        have := isPre_length_le (mem_initsNE.mp hq).1
        rw [htmpD]
        simp only [List.length_append, List.length_cons, List.length_nil]
        omega
      · apply map_eq_self_of
        intro q hq
        apply rewriteP_of_not
        cases hP : isPre (appendToLast (tempDir ++ [dataset ++ ".zip"])
            ".tmp") q with
        | false => rfl
        | true =>
          exfalso
          have h1 : isPre tempDir q = true := by
            apply isPre_trans _ hP
            rw [htmpD]
            exact isPre_append _ _
          rw [H2 q (mem_allPaths_of_dirs hq)] at h1
          cases h1
  have hexU : (download net (fs.mkdirAll tempDir) url
      (tempDir ++ [dataset ++ ".zip"])).fs.pathExists
      ((tempDir ++ [dataset]) ++ (tempDir ++ [dataset])) = false := by
    rw [hDfs, Bool.eq_false_iff]
    intro hpe
    have hm := pathExists_iff_mem.mp hpe
    unfold FS.allPaths at hm
    rw [List.map_cons] at hm
    rcases List.mem_append.mp hm with h1 | h2
    · rcases List.mem_cons.mp h1 with heq | h1'
      · have := congrArg List.length heq
        simp only [List.length_append, List.length_cons, List.length_nil]
          at this
        omega
      · obtain ⟨e, he, heq⟩ := List.mem_map.mp h1'
        have := H2 e.1 (mem_allPaths_of_files he)
        rw [heq] at this
        rw [show (tempDir ++ [dataset]) ++ (tempDir ++ [dataset]) =
          tempDir ++ ([dataset] ++ (tempDir ++ [dataset])) from by
            rw [List.append_assoc], isPre_append] at this
        cases this
    · rcases List.mem_append.mp h2 with h3 | h4
      · have := isPre_length_le (mem_initsNE.mp h3).1
        simp only [List.length_append, List.length_cons, List.length_nil]
          at this
        omega
      · have := H2 _ (mem_allPaths_of_dirs h4)
        rw [show (tempDir ++ [dataset]) ++ (tempDir ++ [dataset]) =
          tempDir ++ ([dataset] ++ (tempDir ++ [dataset])) from by
            rw [List.append_assoc], isPre_append] at this
        cases this
  have hfdU : ((download net (fs.mkdirAll tempDir) url
      (tempDir ++ [dataset ++ ".zip"])).fs.mkdirAll
      (appendToLast (tempDir ++ [dataset]) "_tmp")).fileData
      (tempDir ++ [dataset ++ ".zip"]) =
      some (Data.zip (entries.map (fun q => ⟨[q.1], q.2⟩))) := by
    rw [fileData_mkdirAll, hDfs]
    unfold FS.fileData
    rw [List.find?_cons_of_pos _ (by simp)]
    rfl
  have hlenU : findLongEntry (appendToLast (tempDir ++ [dataset]) "_tmp")
      (entries.map (fun q => ⟨[q.1], q.2⟩)) = none := by
    apply List.find?_eq_none.mpr
    intro m hm
    obtain ⟨q, hq, rfl⟩ := List.mem_map.mp hm
    simp only [Bool.not_eq_true, decide_eq_false_iff_not]
    have := hshort q hq
    omega
  have hUshape := unzip_of_zip hexU hfdU hlenU
  have hUfs : (unzip (download net (fs.mkdirAll tempDir) url
      (tempDir ++ [dataset ++ ".zip"])).fs (tempDir ++ [dataset ++ ".zip"])
      (tempDir ++ [dataset]) (tempDir ++ [dataset])).fs =
      (extractAll ((download net (fs.mkdirAll tempDir) url
        (tempDir ++ [dataset ++ ".zip"])).fs.mkdirAll
        (appendToLast (tempDir ++ [dataset]) "_tmp"))
        (appendToLast (tempDir ++ [dataset]) "_tmp")
        (entries.map (fun q => ⟨[q.1], q.2⟩))).rename
        (appendToLast (tempDir ++ [dataset]) "_tmp")
        (tempDir ++ [dataset]) := by
    rw [hUshape]
  have hMf : ((download net (fs.mkdirAll tempDir) url
      (tempDir ++ [dataset ++ ".zip"])).fs.mkdirAll
      (appendToLast (tempDir ++ [dataset]) "_tmp")).files =
      (tempDir ++ [dataset ++ ".zip"],
        Data.zip (entries.map (fun q => ⟨[q.1], q.2⟩))) :: fs.files := by
    show (download net (fs.mkdirAll tempDir) url
      (tempDir ++ [dataset ++ ".zip"])).fs.files = _
    rw [hDfs]
  have hMd : ((download net (fs.mkdirAll tempDir) url
      (tempDir ++ [dataset ++ ".zip"])).fs.mkdirAll
      (appendToLast (tempDir ++ [dataset]) "_tmp")).dirs =
      initsNE (appendToLast (tempDir ++ [dataset]) "_tmp") ++
        (initsNE tempDir ++ fs.dirs) := by
    show initsNE (appendToLast (tempDir ++ [dataset]) "_tmp") ++
      (download net (fs.mkdirAll tempDir) url
        (tempDir ++ [dataset ++ ".zip"])).fs.dirs = _
    rw [hDfs]
  obtain ⟨J, hJf, hJd, hJp⟩ := extractAll_flat_struct
    ((download net (fs.mkdirAll tempDir) url
      (tempDir ++ [dataset ++ ".zip"])).fs.mkdirAll
      (appendToLast (tempDir ++ [dataset]) "_tmp"))
    (appendToLast (tempDir ++ [dataset]) "_tmp") entries hnd
    (by
      rw [hMf]
      intro e he n hn
      rcases List.mem_cons.mp he with rfl | he'
      · simp only
        intro heq
        have := congrArg List.length heq
        rw [htmpU] at this
        simp only [List.length_append, List.length_cons, List.length_nil]
          at this
        omega
      · intro heq
        have := H2 e.1 (mem_allPaths_of_files he')
        rw [heq, htmpU] at this
        rw [show tempDir ++ [dataset ++ "_tmp"] ++ [n] =
          tempDir ++ ([dataset ++ "_tmp"] ++ [n]) from by
            rw [List.append_assoc], isPre_append] at this
        cases this)
  have hz : isPre (appendToLast (tempDir ++ [dataset]) "_tmp")
      (tempDir ++ [dataset ++ ".zip"]) = false := by
    rw [htmpU]
    rw [show tempDir ++ [dataset ++ ".zip"] =
      tempDir ++ (dataset ++ ".zip") :: [] from rfl]
    exact isPre_snoc_cons (str_append_ne (by decide))
  refine ⟨(J ++ initsNE (appendToLast (tempDir ++ [dataset]) "_tmp")).map
    (rewriteP (appendToLast (tempDir ++ [dataset]) "_tmp")
      (tempDir ++ [dataset])), ?_, ?_, by rw [hUshape], by rw [hdshape],
    by rw [hdshape]⟩
  · rw [hUfs]
    unfold FS.rename
    rw [hJf, hMf, hJd, hMd]
    congr 1
    · rw [List.map_append]
      congr 1
      · rw [List.map_reverse, List.map_map]
        congr 1
        apply List.map_congr_left
        intro q _
        simp only [Function.comp_apply]
        rw [show rewriteP (appendToLast (tempDir ++ [dataset]) "_tmp")
            (tempDir ++ [dataset])
            (appendToLast (tempDir ++ [dataset]) "_tmp" ++ [q.1]) =
            (tempDir ++ [dataset]) ++ [q.1] from rewriteP_append _ _ _]
      · rw [List.map_cons]
        congr 1
        · rw [rewriteP_of_not _ hz]
        · apply map_eq_self_of
          intro e he
          have hP : isPre (appendToLast (tempDir ++ [dataset]) "_tmp")
              e.1 = false := by
            cases hP : isPre (appendToLast (tempDir ++ [dataset]) "_tmp")
                e.1 with
            | false => rfl
            | true =>
              exfalso
              have h1 : isPre tempDir e.1 = true := by
                apply isPre_trans _ hP
                rw [htmpU]
                exact isPre_append _ _
              rw [H2 e.1 (mem_allPaths_of_files he)] at h1
              cases h1
          rw [rewriteP_of_not _ hP]
    · rw [List.map_append, List.map_append, List.map_append]
      rw [map_eq_self_of (l := initsNE tempDir) (fun q hq => by
        apply rewriteP_of_not
        apply isPre_false_of_lt
        have := isPre_length_le (mem_initsNE.mp hq).1
        rw [htmpU]
        simp only [List.length_append, List.length_cons, List.length_nil]
        omega)]
      rw [map_eq_self_of (l := fs.dirs) (fun q hq => by
        apply rewriteP_of_not
        cases hP : isPre (appendToLast (tempDir ++ [dataset]) "_tmp") q with
        | false => rfl
        | true =>
          exfalso
          have h1 : isPre tempDir q = true := by
            apply isPre_trans _ hP
            rw [htmpU]
            exact isPre_append _ _
          rw [H2 q (mem_allPaths_of_dirs hq)] at h1
          cases h1)]
      rw [← List.append_assoc, List.map_append]
  · intro q hq
    obtain ⟨q', hq', rfl⟩ := List.mem_map.mp hq
    have hq'mem : q' ∈ initsNE (appendToLast (tempDir ++ [dataset])
        "_tmp") := by
      rcases List.mem_append.mp hq' with h | h
      · exact hJp q' h
      · exact h
    cases hP : isPre (appendToLast (tempDir ++ [dataset]) "_tmp") q' with
    | false =>
      rw [rewriteP_of_not _ hP]
      left
      rw [← htmpU]
      exact hq'mem
    | true =>
      have hle := isPre_length_le (mem_initsNE.mp hq'mem).1
      have heq : appendToLast (tempDir ++ [dataset]) "_tmp" = q' :=
        eq_of_isPre_of_le hP hle
      rw [← heq, rewriteP_self]
      exact Or.inr rfl

theorem fileData_mk_files (fs : FS) (q : Fpath) :
    fs.fileData q = FS.fileData ⟨fs.files, []⟩ q := rfl

theorem isPre_comparable {a b c : Fpath} (ha : isPre a c = true)
    (hb : isPre b c = true) (hl : a.length ≤ b.length) :
    isPre a b = true := by
  obtain ⟨t, rfl⟩ := isPre_iff.mp ha
  obtain ⟨s, hs⟩ := isPre_iff.mp hb
  obtain ⟨k, hk⟩ : ∃ k, b.length = a.length + k :=
    ⟨b.length - a.length, by omega⟩
  have hbt : b = (b ++ s).take b.length := (List.take_left b s).symm
  rw [← hs, hk, List.take_append] at hbt
  exact isPre_iff.mpr ⟨_, hbt⟩

theorem isPre_region_disjoint {a b : Fpath} (hab : isPre a b = false)
    (hba : isPre b a = false) (r : Fpath) : isPre a (b ++ r) = false := by
  cases hP : isPre a (b ++ r) with
  | false => rfl
  | true =>
    exfalso
    by_cases hl : a.length ≤ b.length
    · have := isPre_comparable hP (isPre_append b r) hl
      rw [hab] at this
      cases this
    · have := isPre_comparable (isPre_append b r) hP (by omega)
      rw [hba] at this
      cases this

/-- C8: when `download_path/dataset` does not yet exist,
`download_unzip_keep_subset` downloads and extracts inside a private
temporary directory and then moves exactly the files whose names match at
least one glob pattern into the target: the call succeeds after one
transfer (also when nothing matches), a file `name` with contents `data`
sits in the target exactly when the (flat) archive contains it and some
pattern matches, and nothing under the temporary directory survives; if
the target already exists the whole operation is skipped. -/
theorem keep_subset_retains_matching (net : String → Response) (fs fs0 : FS)
    (downloadPath tempDir : Fpath) (url dataset : String)
    (patterns : List String) (entries : List (String × String))
    (hnet : net url = ⟨Data.zip (entries.map (fun q => ⟨[q.1], q.2⟩)), true⟩)
    (htd : tempDir ≠ [])
    (hnd : (entries.map Prod.fst).Nodup)
    (hshort : ∀ q ∈ entries, pathStrLen
      (appendToLast (tempDir ++ [dataset]) "_tmp" ++ [q.1]) ≤ 260)
    (H1 : ∀ q ∈ fs.allPaths, isPre (downloadPath ++ [dataset]) q = false)
    (H2 : ∀ q ∈ fs.allPaths, isPre tempDir q = false)
    (H3a : isPre tempDir (downloadPath ++ [dataset]) = false)
    (H3b : isPre (downloadPath ++ [dataset]) tempDir = false) :
    (fs0.pathExists (downloadPath ++ [dataset]) = true →
      download_unzip_keep_subset net fs0 downloadPath tempDir url patterns
        dataset = ⟨fs0, 0, none⟩) ∧
    (download_unzip_keep_subset net fs downloadPath tempDir url patterns
      dataset).err = none ∧
    (download_unzip_keep_subset net fs downloadPath tempDir url patterns
      dataset).transfers = 1 ∧
    (∀ n d : String,
      ((download_unzip_keep_subset net fs downloadPath tempDir url patterns
          dataset).fs.fileData ((downloadPath ++ [dataset]) ++ [n]) =
        some (Data.raw d)) ↔
      ((n, d) ∈ entries ∧ matchesAny patterns n = true)) ∧
    (∀ q : Fpath, isPre tempDir q = true →
      (download_unzip_keep_subset net fs downloadPath tempDir url patterns
        dataset).fs.pathExists q = false) := by
  obtain ⟨J2, hUfs, hJ2, hUerr, hDerr, hDtr⟩ :=
    ks_unzip_state net fs tempDir url dataset entries hnet htd hnd hshort H2
  have hBA : ∀ r : Fpath,
      isPre tempDir ((downloadPath ++ [dataset]) ++ r) = false :=
    isPre_region_disjoint H3a H3b
  have hAB : ∀ r : Fpath,
      isPre (downloadPath ++ [dataset]) (tempDir ++ r) = false :=
    isPre_region_disjoint H3b H3a
  have hxd : isPre (tempDir ++ [dataset]) (downloadPath ++ [dataset]) =
      false := by
    cases hP : isPre (tempDir ++ [dataset]) (downloadPath ++ [dataset]) with
    | false => rfl
    | true =>
      exfalso
      have := isPre_of_append_right hP
      rw [H3a] at this
      cases this
  have hdx : isPre (downloadPath ++ [dataset]) (tempDir ++ [dataset]) =
      false := hAB [dataset]
  have hexKS : fs.pathExists (downloadPath ++ [dataset]) = false :=
    not_pathExists_of_fresh H1 (isPre_refl _)
  have hksshape := @ks_ok net _ _ _ _ patterns _ hexKS hDerr hUerr
  have hexT : (unzip (download net (fs.mkdirAll tempDir) url
      (tempDir ++ [dataset ++ ".zip"])).fs (tempDir ++ [dataset ++ ".zip"])
      (tempDir ++ [dataset]) (tempDir ++ [dataset])).fs.pathExists
      (downloadPath ++ [dataset]) = false := by
    rw [hUfs, Bool.eq_false_iff]
    intro hpe
    have hm := pathExists_iff_mem.mp hpe
    unfold FS.allPaths at hm
    rcases List.mem_append.mp hm with hfile | hdir
    · obtain ⟨e, he, heq⟩ := List.mem_map.mp hfile
      rcases List.mem_append.mp he with hrev | hcons
      · obtain ⟨q, -, rfl⟩ := List.mem_map.mp (List.mem_reverse.mp hrev)
        have := hBA []
        rw [List.append_nil, ← heq] at this
        simp only at this
        rw [show tempDir ++ [dataset] ++ [q.1] =
          tempDir ++ ([dataset] ++ [q.1]) from by rw [List.append_assoc],
          isPre_append] at this
        cases this
      · rcases List.mem_cons.mp hcons with rfl | hfs'
        · have := hBA []
          rw [List.append_nil, ← heq] at this
          simp only at this
          rw [isPre_append] at this
          cases this
        · have := H1 e.1 (mem_allPaths_of_files hfs')
          rw [heq, isPre_refl] at this
          cases this
    · rcases List.mem_append.mp hdir with hJ | hrest
      · rcases hJ2 _ hJ with hmem | heq
        · have h1 := (mem_initsNE.mp hmem).1
          have := hAB [dataset ++ "_tmp"]
          rw [h1] at this
          cases this
        · have := hdx
          rw [← heq, isPre_refl] at this
          cases this
      · rcases List.mem_append.mp hrest with hm1 | hm2
        · have h1 := (mem_initsNE.mp hm1).1
          rw [H3b] at h1
          cases h1
        · have := H1 _ (mem_allPaths_of_dirs hm2)
          rw [isPre_refl] at this
          cases this
  have hmove := @move_files_of_not_exists _ patterns
    (tempDir ++ [dataset]) _ hexT
  have hstate : (unzip (download net (fs.mkdirAll tempDir) url
      (tempDir ++ [dataset ++ ".zip"])).fs (tempDir ++ [dataset ++ ".zip"])
      (tempDir ++ [dataset]) (tempDir ++ [dataset])).fs.mkdirAll
      (downloadPath ++ [dataset]) =
      moveState (tempDir ++ [dataset]) (downloadPath ++ [dataset])
        entries.reverse
        ((tempDir ++ [dataset ++ ".zip"],
          Data.zip (entries.map (fun q => ⟨[q.1], q.2⟩))) :: fs.files)
        (initsNE (downloadPath ++ [dataset]) ++
          (J2 ++ (initsNE tempDir ++ fs.dirs)))
        (fun _ => false) := by
    rw [hUfs]
    unfold moveState FS.mkdirAll
    simp only
    congr 1
    rw [List.map_reverse]
    simp
  have hfold := move_fold_subset (tempDir ++ [dataset])
    (downloadPath ++ [dataset]) patterns entries.reverse
    ((tempDir ++ [dataset ++ ".zip"],
      Data.zip (entries.map (fun q => ⟨[q.1], q.2⟩))) :: fs.files)
    (initsNE (downloadPath ++ [dataset]) ++
      (J2 ++ (initsNE tempDir ++ fs.dirs)))
    (fun _ => false)
    (by rw [List.map_reverse]; exact List.nodup_reverse.mpr hnd)
    (by
      intro e he
      rcases List.mem_cons.mp he with rfl | hfs'
      · simp only
        cases hP : isPre (tempDir ++ [dataset])
            (tempDir ++ [dataset ++ ".zip"]) with
        | false => rfl
        | true =>
          exfalso
          have hle : (tempDir ++ [dataset ++ ".zip"]).length ≤
              (tempDir ++ [dataset]).length := by simp
          have heq := eq_of_isPre_of_le hP hle
          obtain ⟨-, hx⟩ := append_singleton_inj heq
          exact str_ne_append (by decide) hx
      · cases hP : isPre (tempDir ++ [dataset]) e.1 with
        | false => rfl
        | true =>
          exfalso
          have h1 : isPre tempDir e.1 = true :=
            isPre_trans (isPre_append _ _) hP
          rw [H2 e.1 (mem_allPaths_of_files hfs')] at h1
          cases h1)
    (by
      intro q hq n
      rcases List.mem_append.mp hq with h1 | h2
      · cases hP : isPre ((tempDir ++ [dataset]) ++ [n]) q with
        | false => rfl
        | true =>
          exfalso
          have h2 := isPre_trans hP (mem_initsNE.mp h1).1
          have h3 := isPre_of_append_right h2
          rw [hxd] at h3
          cases h3
      · rcases List.mem_append.mp h2 with hJ | hrest
        · apply isPre_false_of_lt
          rcases hJ2 _ hJ with hmem | heq
          · have := isPre_length_le (mem_initsNE.mp hmem).1
            simp only [List.length_append, List.length_cons,
              List.length_nil] at this ⊢
            omega
          · rw [heq]
            simp
        · rcases List.mem_append.mp hrest with hm1 | hm2
          · apply isPre_false_of_lt
            have := isPre_length_le (mem_initsNE.mp hm1).1
            simp only [List.length_append, List.length_cons,
              List.length_nil] at this ⊢
            omega
          · cases hP : isPre ((tempDir ++ [dataset]) ++ [n]) q with
            | false => rfl
            | true =>
              exfalso
              have h1 : isPre tempDir q = true := by
                apply isPre_trans _ hP
                rw [List.append_assoc]
                exact isPre_append _ _
              rw [H2 q (mem_allPaths_of_dirs hm2)] at h1
              cases h1)
    hxd hdx
  have hksfs : (download_unzip_keep_subset net fs downloadPath tempDir url
      patterns dataset).fs =
      (moveState (tempDir ++ [dataset]) (downloadPath ++ [dataset])
        entries.reverse
        ((tempDir ++ [dataset ++ ".zip"],
          Data.zip (entries.map (fun q => ⟨[q.1], q.2⟩))) :: fs.files)
        (initsNE (downloadPath ++ [dataset]) ++
          (J2 ++ (initsNE tempDir ++ fs.dirs)))
        (fun x => false || matchesAny patterns x)).removeTree tempDir := by
    rw [hksshape]
    show (move_files _ patterns _ _).removeTree tempDir = _
    rw [hmove, hstate, hfold]
  have hmatched : ((moveState (tempDir ++ [dataset])
      (downloadPath ++ [dataset]) entries.reverse
      ((tempDir ++ [dataset ++ ".zip"],
        Data.zip (entries.map (fun q => ⟨[q.1], q.2⟩))) :: fs.files)
      (initsNE (downloadPath ++ [dataset]) ++
        (J2 ++ (initsNE tempDir ++ fs.dirs)))
      (fun x => false || matchesAny patterns x)).removeTree tempDir).files =
      ((entries.reverse.filter (fun q => matchesAny patterns q.1)).map
        (fun q => ((downloadPath ++ [dataset]) ++ [q.1], Data.raw q.2))) ++
        fs.files := by
    show ((moveState _ _ _ _ _ _).files.filter
      (fun e => !(isPre tempDir e.1))) = _
    unfold moveState
    rw [List.filter_append, List.filter_map, List.filter_cons_of_neg
      (by simp [isPre_append]), filter_all_of (fun (e : Fpath × Data) he => by
        simp only [Bool.not_eq_true']
        exact H2 e.1 (mem_allPaths_of_files he))]
    rw [List.filter_congr (q := fun q : String × String =>
      matchesAny patterns q.1) (fun q _ => by
        cases hM : matchesAny patterns q.1 with
        | true =>
          have h := hBA [q.1]
          simp only [List.append_assoc, List.singleton_append] at h
          simp [hM, h]
        | false => simp [hM, List.append_assoc, isPre_append])]
    congr 1
    apply List.map_congr_left
    intro q hq
    have hM : matchesAny patterns q.1 = true :=
      (List.mem_filter.mp hq).2
    simp [hM]
  have herr2 : (download_unzip_keep_subset net fs downloadPath tempDir url
      patterns dataset).err = none := by rw [hksshape]
  have htr2 : (download_unzip_keep_subset net fs downloadPath tempDir url
      patterns dataset).transfers = 1 := by rw [hksshape]; exact hDtr
  refine ⟨fun hex => ks_skip hex, herr2, htr2, ?_, ?_⟩
  · intro n d
    rw [fileData_mk_files, hksfs, hmatched]
    rw [fileData_matched_map (by
        apply List.Sublist.nodup ((List.filter_sublist _).map Prod.fst)
        rw [List.map_reverse]
        exact List.nodup_reverse.mpr hnd)
      (fun e he => H1 e.1 (mem_allPaths_of_files he)) n d]
    rw [List.mem_filter, List.mem_reverse]
  · intro q hq
    rw [hksfs]
    exact pathExists_removeTree_under hq

/-- Witness for C8: a two-member archive (`keep.txt`, `drop.csv`) with the
single pattern `*.txt` leaves exactly `keep.txt` under `cache/subset_zip`,
nothing under the temporary directory, and the operation is skipped when the
target already exists. -/
theorem keep_subset_retains_matching_witness :
    (download_unzip_keep_subset
        (fun _ => ⟨Data.zip ([("keep.txt", "K"), ("drop.csv", "D")].map
          (fun q => ⟨[q.1], q.2⟩)), true⟩)
        ⟨[], [["cache", "subset_zip"]]⟩ ["cache"] ["tmpk"] "u" ["*.txt"]
        "subset_zip" = ⟨⟨[], [["cache", "subset_zip"]]⟩, 0, none⟩) ∧
    (download_unzip_keep_subset
        (fun _ => ⟨Data.zip ([("keep.txt", "K"), ("drop.csv", "D")].map
          (fun q => ⟨[q.1], q.2⟩)), true⟩)
        ⟨[], []⟩ ["cache"] ["tmpk"] "u" ["*.txt"] "subset_zip").err =
      none ∧
    (download_unzip_keep_subset
        (fun _ => ⟨Data.zip ([("keep.txt", "K"), ("drop.csv", "D")].map
          (fun q => ⟨[q.1], q.2⟩)), true⟩)
        ⟨[], []⟩ ["cache"] ["tmpk"] "u" ["*.txt"]
        "subset_zip").transfers = 1 ∧
    (download_unzip_keep_subset
        (fun _ => ⟨Data.zip ([("keep.txt", "K"), ("drop.csv", "D")].map
          (fun q => ⟨[q.1], q.2⟩)), true⟩)
        ⟨[], []⟩ ["cache"] ["tmpk"] "u" ["*.txt"]
        "subset_zip").fs.fileData
      ((["cache"] ++ ["subset_zip"]) ++ ["keep.txt"]) =
      some (Data.raw "K") ∧
    ¬((download_unzip_keep_subset
        (fun _ => ⟨Data.zip ([("keep.txt", "K"), ("drop.csv", "D")].map
          (fun q => ⟨[q.1], q.2⟩)), true⟩)
        ⟨[], []⟩ ["cache"] ["tmpk"] "u" ["*.txt"]
        "subset_zip").fs.fileData
      ((["cache"] ++ ["subset_zip"]) ++ ["drop.csv"]) =
      some (Data.raw "D")) ∧
    (download_unzip_keep_subset
        (fun _ => ⟨Data.zip ([("keep.txt", "K"), ("drop.csv", "D")].map
          (fun q => ⟨[q.1], q.2⟩)), true⟩)
        ⟨[], []⟩ ["cache"] ["tmpk"] "u" ["*.txt"]
        "subset_zip").fs.pathExists ["tmpk", "x"] = false := by
  have H := keep_subset_retains_matching
    (fun _ => ⟨Data.zip ([("keep.txt", "K"), ("drop.csv", "D")].map
      (fun q => ⟨[q.1], q.2⟩)), true⟩)
    ⟨[], []⟩ ⟨[], [["cache", "subset_zip"]]⟩ ["cache"] ["tmpk"] "u"
    "subset_zip" ["*.txt"] [("keep.txt", "K"), ("drop.csv", "D")]
    rfl (by decide) (by decide) (by decide) (by decide) (by decide)
    (by decide) (by decide)
  refine ⟨H.1 (by decide), H.2.1, H.2.2.1,
    (H.2.2.2.1 "keep.txt" "K").mpr
      ⟨by decide, by simp [matchesAny, globName, globMatch, startsDot]⟩,
    fun hc => by
      have h := ((H.2.2.2.1 "drop.csv" "D").mp hc).2
      simp [matchesAny, globName, globMatch, startsDot] at h,
    H.2.2.2.2 ["tmpk", "x"] (by decide)⟩
